import Mathlib

/-!
Verification development for the `extended_openai_conversation` integration
(`custom_components/extended_openai_conversation/__init__.py`).

The embedding models the conversation-turn control loop: the post-processing
of model output (backslash stripping, `$ActionRequired` directive extraction
and execution, JSON removal), the fueled `query` / `execute_function`
recursion, `async_process` history management, and `async_setup_entry`.
Python strings are modelled as `List Char` (wrapped in `String` at the
interfaces), `json.loads` as an executable recursive-descent parser, and the
regex `\x7b.*?\x7d` (as used by `re.findall` / `re.sub`, without DOTALL) as an
explicit left-to-right scan.
-/

namespace ExtOpenAI

/-! ### Regex scan: `re.findall` and `re.sub` with pattern `\x7b.*?\x7d` -/

/-- Model of the non-greedy regex body `.*?` followed by a closing brace,
applied to the characters after an opening brace: succeeds with the interior
and the remainder iff a closing brace appears before any newline (Python `.`
does not match a newline without DOTALL). -/
def braceSpan : List Char → Option (List Char × List Char)
  | [] => none
  | c :: cs =>
    if c = '}' then some ([], cs)
    else if c = '\n' then none
    else
      match braceSpan cs with
      | some (m, a) => some (c :: m, a)
      | none => none

theorem braceSpan_length : ∀ {cs m a : List Char}, braceSpan cs = some (m, a) → a.length < cs.length := by
  intro cs
  induction cs with
  | nil => intro m a h; simp [braceSpan] at h
  | cons c cs ih =>
    intro m a h
    simp only [braceSpan] at h
    split at h
    · cases h
      simp
    · split at h
      · cases h
      · cases hbs : braceSpan cs with
        | none => rw [hbs] at h; cases h
        | some p =>
          obtain ⟨m0, a0⟩ := p
          rw [hbs] at h
          cases h
          have := ih hbs
          simp only [List.length_cons]
          omega

/-- Model of `re.findall(r'\x7b.*?\x7d', text)`: left-to-right non-overlapping
scan returning each matched substring (opening brace, newline-free interior
without a closing brace, closing brace). The `Nat` argument bounds the
iteration; the scan consumes at least one character per step, so the input
length (as fixed by `scanBraces`) is always sufficient. -/
def scanBracesF : Nat → List Char → List (List Char)
  | 0, _ => []
  | fuel + 1, l =>
    match l with
    | [] => []
    | c :: cs =>
      if c = '{' then
        match braceSpan cs with
        | some (m, a) => ('{' :: (m ++ ['}'])) :: scanBracesF fuel a
        | none => scanBracesF fuel cs
      else scanBracesF fuel cs

/-- The scan of `re.findall(r'\x7b.*?\x7d', text)` at its sufficient bound. -/
def scanBraces (l : List Char) : List (List Char) := scanBracesF l.length l

theorem scanBracesF_congr : ∀ (f1 f2 : Nat) (l : List Char), l.length ≤ f1 → l.length ≤ f2 →
    scanBracesF f1 l = scanBracesF f2 l := by
  intro f1
  induction f1 with
  | zero =>
    intro f2 l h1 _
    have : l = [] := List.length_eq_zero.mp (Nat.le_zero.mp h1)
    subst this
    cases f2 <;> rfl
  | succ g1 ih =>
    intro f2 l h1 h2
    cases l with
    | nil => cases f2 <;> rfl
    | cons c cs =>
      cases f2 with
      | zero => simp at h2
      | succ g2 =>
        simp only [List.length_cons] at h1 h2
        have hcs := ih g2 cs (by omega) (by omega)
        simp only [scanBracesF]
        cases hbs : braceSpan cs with
        | none => by_cases hc : c = '{' <;> simp [hc, hcs]
        | some p =>
          obtain ⟨m, a⟩ := p
          have ha := braceSpan_length hbs
          have haa := ih g2 a (by omega) (by omega)
          by_cases hc : c = '{' <;> simp [hc, hcs, haa]

theorem scanBraces_nil : scanBraces [] = [] := rfl

theorem scanBraces_cons (c : Char) (cs : List Char) :
    scanBraces (c :: cs) =
      (if c = '{' then
        match braceSpan cs with
        | some (m, a) => ('{' :: (m ++ ['}'])) :: scanBraces a
        | none => scanBraces cs
      else scanBraces cs) := by
  show scanBracesF (cs.length + 1) (c :: cs) = _
  simp only [scanBracesF]
  cases hbs : braceSpan cs with
  | none =>
    have hcs : scanBracesF cs.length cs = scanBraces cs := rfl
    by_cases hc : c = '{' <;> simp [hc, hcs]
  | some p =>
    obtain ⟨m, a⟩ := p
    have ha := braceSpan_length hbs
    have haa : scanBracesF cs.length a = scanBraces a :=
      scanBracesF_congr _ _ _ (by omega) (Nat.le_refl _)
    have hcs : scanBracesF cs.length cs = scanBraces cs := rfl
    by_cases hc : c = '{' <;> simp [hc, hcs, haa]

/-- Model of `re.sub(r'\x7b.*?\x7d', '', text)`: the same scan, keeping the
characters outside every match, bounded like `scanBracesF`. -/
def removeScanF : Nat → List Char → List Char
  | 0, l => l
  | fuel + 1, l =>
    match l with
    | [] => []
    | c :: cs =>
      if c = '{' then
        match braceSpan cs with
        | some (_, a) => removeScanF fuel a
        | none => c :: removeScanF fuel cs
      else c :: removeScanF fuel cs

/-- The deletion of `re.sub(r'\x7b.*?\x7d', '', text)` at its sufficient bound. -/
def removeScan (l : List Char) : List Char := removeScanF l.length l

theorem removeScanF_congr : ∀ (f1 f2 : Nat) (l : List Char), l.length ≤ f1 → l.length ≤ f2 →
    removeScanF f1 l = removeScanF f2 l := by
  intro f1
  induction f1 with
  | zero =>
    intro f2 l h1 _
    have : l = [] := List.length_eq_zero.mp (Nat.le_zero.mp h1)
    subst this
    cases f2 <;> rfl
  | succ g1 ih =>
    intro f2 l h1 h2
    cases l with
    | nil => cases f2 <;> rfl
    | cons c cs =>
      cases f2 with
      | zero => simp at h2
      | succ g2 =>
        simp only [List.length_cons] at h1 h2
        have hcs := ih g2 cs (by omega) (by omega)
        simp only [removeScanF]
        cases hbs : braceSpan cs with
        | none => by_cases hc : c = '{' <;> simp [hc, hcs]
        | some p =>
          obtain ⟨m, a⟩ := p
          have ha := braceSpan_length hbs
          have haa := ih g2 a (by omega) (by omega)
          by_cases hc : c = '{' <;> simp [hc, hcs, haa]

theorem removeScan_nil : removeScan [] = [] := rfl

theorem removeScan_cons (c : Char) (cs : List Char) :
    removeScan (c :: cs) =
      (if c = '{' then
        match braceSpan cs with
        | some (_, a) => removeScan a
        | none => c :: removeScan cs
      else c :: removeScan cs) := by
  show removeScanF (cs.length + 1) (c :: cs) = _
  simp only [removeScanF]
  cases hbs : braceSpan cs with
  | none =>
    have hcs : removeScanF cs.length cs = removeScan cs := rfl
    by_cases hc : c = '{' <;> simp [hc, hcs]
  | some p =>
    obtain ⟨m, a⟩ := p
    have ha := braceSpan_length hbs
    have haa : removeScanF cs.length a = removeScan a :=
      removeScanF_congr _ _ _ (by omega) (Nat.le_refl _)
    have hcs : removeScanF cs.length cs = removeScan cs := rfl
    by_cases hc : c = '{' <;> simp [hc, hcs, haa]

/-- Model of Python `text.replace(pat, '')` for a fixed non-empty pattern:
left-to-right removal of non-overlapping occurrences, bounded like
`scanBracesF`. -/
def removeSubstringF (pat : List Char) : Nat → List Char → List Char
  | 0, l => l
  | fuel + 1, l =>
    match l with
    | [] => []
    | c :: cs =>
      if pat.isPrefixOf (c :: cs) ∧ pat ≠ [] then
        removeSubstringF pat fuel (List.drop (pat.length - 1) cs)
      else c :: removeSubstringF pat fuel cs

/-- Python `text.replace(pat, '')` at its sufficient bound. -/
def removeSubstring (pat : List Char) (l : List Char) : List Char :=
  removeSubstringF pat l.length l

theorem removeSubstringF_congr (pat : List Char) :
    ∀ (f1 f2 : Nat) (l : List Char), l.length ≤ f1 → l.length ≤ f2 →
    removeSubstringF pat f1 l = removeSubstringF pat f2 l := by
  intro f1
  induction f1 with
  | zero =>
    intro f2 l h1 _
    have : l = [] := List.length_eq_zero.mp (Nat.le_zero.mp h1)
    subst this
    cases f2 <;> rfl
  | succ g1 ih =>
    intro f2 l h1 h2
    cases l with
    | nil => cases f2 <;> rfl
    | cons c cs =>
      cases f2 with
      | zero => simp at h2
      | succ g2 =>
        simp only [List.length_cons] at h1 h2
        have hd : (List.drop (pat.length - 1) cs).length ≤ cs.length := by
          simp [List.length_drop]
        have hcs := ih g2 cs (by omega) (by omega)
        have hdr := ih g2 (List.drop (pat.length - 1) cs) (by omega) (by omega)
        simp only [removeSubstringF]
        by_cases hp : pat.isPrefixOf (c :: cs) ∧ pat ≠ [] <;> simp [hp, hcs, hdr]

theorem removeSubstring_nil (pat : List Char) : removeSubstring pat [] = [] := by
  cases pat <;> rfl

theorem removeSubstring_cons (pat : List Char) (c : Char) (cs : List Char) :
    removeSubstring pat (c :: cs) =
      (if pat.isPrefixOf (c :: cs) ∧ pat ≠ [] then
        removeSubstring pat (List.drop (pat.length - 1) cs)
      else c :: removeSubstring pat cs) := by
  show removeSubstringF pat (cs.length + 1) (c :: cs) = _
  simp only [removeSubstringF]
  have hd : (List.drop (pat.length - 1) cs).length ≤ cs.length := by
    simp [List.length_drop]
  have hdr : removeSubstringF pat cs.length (List.drop (pat.length - 1) cs) =
      removeSubstring pat (List.drop (pat.length - 1) cs) :=
    removeSubstringF_congr pat _ _ _ (by omega) (Nat.le_refl _)
  have hcs : removeSubstringF pat cs.length cs = removeSubstring pat cs := rfl
  by_cases hp : pat.isPrefixOf (c :: cs) ∧ pat ≠ [] <;> simp [hp, hcs, hdr]

/-- Characters treated as whitespace by Python `str.strip()` (ASCII subset). -/
def pySpace (c : Char) : Bool :=
  c = ' ' || c = '\t' || c = '\n' || c = '\r' || c = '\x0b' || c = '\x0c'

/-- Model of Python `str.strip()`. -/
def pyStrip (s : List Char) : List Char :=
  ((s.dropWhile pySpace).reverse.dropWhile pySpace).reverse

/-- Substring containment, modelling the Python `in` operator on strings. -/
def containsSub (pat : List Char) : List Char → Bool
  | [] => pat.isEmpty
  | c :: cs => pat.isPrefixOf (c :: cs) || containsSub pat cs

/-- Model of Python `s.split(".")`: splits on every dot, keeping empty parts. -/
def splitOnDot : List Char → List (List Char)
  | [] => [[]]
  | c :: cs =>
    if c = '.' then [] :: splitOnDot cs
    else
      match splitOnDot cs with
      | [] => [[c]]
      | h :: t => (c :: h) :: t

/-! ### JSON values and a model of `json.loads` -/

/-- JSON values as produced by Python `json.loads`. Numbers keep their source
lexeme (the code never computes with numeric values, it only forwards them),
objects are insertion-ordered key/value lists with distinct keys (Python
`dict` semantics: a duplicate key keeps its first position, last value wins). -/
inductive Json where
  | str (s : String)
  | num (lexeme : String)
  | bool (b : Bool)
  | null
  | arr (elems : List Json)
  | obj (fields : List (String × Json))
deriving Repr

/-- Python `dict` insertion: replace the value at an existing key in place,
otherwise append the binding at the end. -/
def insertKey (l : List (String × Json)) (k : String) (v : Json) : List (String × Json) :=
  match l with
  | [] => [(k, v)]
  | (k0, v0) :: t => if k0 = k then (k0, v) :: t else (k0, v0) :: insertKey t k v

/-- Value of a key in a JSON object, first binding wins (keys are distinct). -/
def lookupKey (l : List (String × Json)) (k : String) : Option Json :=
  (l.find? (fun p => p.1 = k)).map (fun p => p.2)

/-- Python `dict.pop(k)` residue: all bindings except those at key `k`. -/
def eraseKey (l : List (String × Json)) (k : String) : List (String × Json) :=
  l.filter (fun p => ¬ p.1 = k)

/-- JSON inter-token whitespace (per RFC 8259, as accepted by `json.loads`). -/
def jsonWs (c : Char) : Bool :=
  c = ' ' || c = '\t' || c = '\n' || c = '\r'

/-- Skip JSON whitespace. -/
def skipWs (l : List Char) : List Char := l.dropWhile jsonWs

/-- Hexadecimal digit value. -/
def hexVal (c : Char) : Option Nat :=
  if '0' ≤ c ∧ c ≤ '9' then some (c.toNat - '0'.toNat)
  else if 'a' ≤ c ∧ c ≤ 'f' then some (c.toNat - 'a'.toNat + 10)
  else if 'A' ≤ c ∧ c ≤ 'F' then some (c.toNat - 'A'.toNat + 10)
  else none

/-- Decode one escape character after a backslash inside a JSON string. -/
def jsonEscape (c : Char) : Option Char :=
  if c = '"' then some '"'
  else if c = '\\' then some '\\'
  else if c = '/' then some '/'
  else if c = 'b' then some (Char.ofNat 8)
  else if c = 'f' then some (Char.ofNat 12)
  else if c = 'n' then some '\n'
  else if c = 'r' then some '\r'
  else if c = 't' then some '\t'
  else none

/-- Body of a JSON string literal after the opening quote: returns the decoded
characters and the remainder after the closing quote. Raw control characters
are rejected (the default strict mode of `json.loads`). Bounded like
`scanBracesF`: each step consumes at least one character, so the input
length (as fixed by `parseStringBody`) is always sufficient. -/
def parseStringBodyF : Nat → List Char → Option (List Char × List Char)
  | 0, _ => none
  | fuel + 1, l =>
    match l with
    | [] => none
    | c :: cs =>
      if c = '"' then some ([], cs)
      else if c = '\\' then
        match cs with
        | [] => none
        | e :: cs2 =>
          match jsonEscape e with
          | some d =>
            match parseStringBodyF fuel cs2 with
            | some (r, rest) => some (d :: r, rest)
            | none => none
          | none =>
            if e = 'u' then
              match cs2 with
              | h1 :: h2 :: h3 :: h4 :: cs3 =>
                match hexVal h1, hexVal h2, hexVal h3, hexVal h4 with
                | some v1, some v2, some v3, some v4 =>
                  match parseStringBodyF fuel cs3 with
                  | some (r, rest) =>
                    some (Char.ofNat (((v1 * 16 + v2) * 16 + v3) * 16 + v4) :: r, rest)
                  | none => none
                | _, _, _, _ => none
              | _ => none
            else none
      else if c.toNat < 32 then none
      else
        match parseStringBodyF fuel cs with
        | some (r, rest) => some (c :: r, rest)
        | none => none

/-- The JSON string-literal body scanner at its sufficient bound. -/
def parseStringBody (l : List Char) : Option (List Char × List Char) :=
  parseStringBodyF l.length l

theorem parseStringBodyF_congr : ∀ (f1 f2 : Nat) (l : List Char),
    l.length ≤ f1 → l.length ≤ f2 →
    parseStringBodyF f1 l = parseStringBodyF f2 l := by
  intro f1
  induction f1 with
  | zero =>
    intro f2 l h1 _
    have : l = [] := List.length_eq_zero.mp (Nat.le_zero.mp h1)
    subst this
    cases f2 <;> rfl
  | succ g1 ih =>
    intro f2 l h1 h2
    cases l with
    | nil => cases f2 <;> rfl
    | cons c cs =>
      cases f2 with
      | zero => simp at h2
      | succ g2 =>
        simp only [List.length_cons] at h1 h2
        have ihcs := ih g2 cs (by omega) (by omega)
        simp only [parseStringBodyF]
        by_cases hq : c = '"'
        · simp [hq]
        · by_cases hb : c = '\\'
          · cases cs with
            | nil => simp [hq, hb]
            | cons e cs2 =>
              simp only [List.length_cons] at h1 h2
              have ihcs2 := ih g2 cs2 (by omega) (by omega)
              cases hje : jsonEscape e with
              | some d => simp [hq, hb, hje, ihcs2]
              | none =>
                by_cases hu : e = 'u'
                · cases cs2 with
                  | nil => simp [hq, hb, hje, hu, jsonEscape]
                  | cons a1 t1 =>
                    cases t1 with
                    | nil => simp [hq, hb, hje, hu, jsonEscape]
                    | cons a2 t2 =>
                      cases t2 with
                      | nil => simp [hq, hb, hje, hu, jsonEscape]
                      | cons a3 t3 =>
                        cases t3 with
                        | nil => simp [hq, hb, hje, hu, jsonEscape]
                        | cons a4 cs3 =>
                          simp only [List.length_cons] at h1 h2
                          have ihcs3 := ih g2 cs3 (by omega) (by omega)
                          simp [hq, hb, hje, hu, jsonEscape, ihcs3]
                · simp [hq, hb, hje, hu]
          · by_cases hn : c.toNat < 32
            · simp [hq, hb, hn]
            · simp [hq, hb, hn, ihcs]

theorem parseStringBody_quote (cs : List Char) : parseStringBody ('"' :: cs) = some ([], cs) := by
  show parseStringBodyF (cs.length + 1) ('"' :: cs) = _
  simp [parseStringBodyF]

theorem parseStringBody_cons_plain (c : Char) (cs : List Char)
    (hq : ¬ c = '"') (hb : ¬ c = '\\') (hn : ¬ c.toNat < 32) :
    parseStringBody (c :: cs) =
      match parseStringBody cs with
      | some (r, rest) => some (c :: r, rest)
      | none => none := by
  show parseStringBodyF (cs.length + 1) (c :: cs) = _
  have hcs : parseStringBodyF cs.length cs = parseStringBody cs := rfl
  simp only [parseStringBodyF]
  rw [if_neg hq, if_neg hb, if_neg hn, hcs]

/-- The integer-part / fraction / exponent digits of a JSON number lexeme.
Returns the lexeme characters and the remainder, following the JSON grammar
`-? (0 | [1-9][0-9]*) (. [0-9]+)? ([eE][+-]?[0-9]+)?`. -/
def numberLexeme (l : List Char) : Option (List Char × List Char) :=
  let (sign, l1) : List Char × List Char :=
    match l with
    | '-' :: t => (['-'], t)
    | _ => ([], l)
  match l1 with
  | [] => none
  | c :: _ =>
    if ¬ c.isDigit then none
    else
      let (intPart, l2) : List Char × List Char :=
        if c = '0' then ([c], l1.tail)
        else l1.span Char.isDigit
      let (fracPart, l3) : List Char × List Char :=
        match l2 with
        | '.' :: t =>
          let (ds, r) := t.span Char.isDigit
          if ds = [] then (['!'], l2) else ('.' :: ds, r)
        | _ => ([], l2)
      if fracPart = ['!'] then none
      else
        let (expPart, l4) : List Char × List Char :=
          match l3 with
          | e :: t =>
            if e = 'e' ∨ e = 'E' then
              let (sgn, t2) : List Char × List Char :=
                match t with
                | s :: t2 => if s = '+' ∨ s = '-' then ([s], t2) else ([], t)
                | [] => ([], t)
              let (ds, r) := t2.span Char.isDigit
              if ds = [] then (['!'], l3) else (e :: (sgn ++ ds), r)
            else ([], l3)
          | [] => ([], l3)
        if expPart = ['!'] then none
        else some (sign ++ intPart ++ fracPart ++ expPart, l4)

mutual

/-- Recursive-descent JSON value, fuel-indexed. Mirrors `json.loads` with its
defaults, including the non-standard literals `NaN`, `Infinity`, `-Infinity`. -/
def parseValue : Nat → List Char → Option (Json × List Char)
  | 0, _ => none
  | fuel + 1, l =>
    match skipWs l with
    | [] => none
    | c :: cs =>
      if c = '"' then
        match parseStringBody cs with
        | some (b, rest) => some (.str (String.mk b), rest)
        | none => none
      else if c = '{' then
        match skipWs cs with
        | '}' :: rest => some (.obj [], rest)
        | _ => parseFields fuel cs []
      else if c = '[' then
        match skipWs cs with
        | ']' :: rest => some (.arr [], rest)
        | _ => parseElems fuel cs []
      else if ("true").data.isPrefixOf (c :: cs) then some (.bool true, (c :: cs).drop 4)
      else if ("false").data.isPrefixOf (c :: cs) then some (.bool false, (c :: cs).drop 5)
      else if ("null").data.isPrefixOf (c :: cs) then some (.null, (c :: cs).drop 4)
      else if ("NaN").data.isPrefixOf (c :: cs) then some (.num "NaN", (c :: cs).drop 3)
      else if ("Infinity").data.isPrefixOf (c :: cs) then some (.num "Infinity", (c :: cs).drop 8)
      else if ("-Infinity").data.isPrefixOf (c :: cs) then some (.num "-Infinity", (c :: cs).drop 9)
      else
        match numberLexeme (c :: cs) with
        | some (lex, rest) => some (.num (String.mk lex), rest)
        | none => none

/-- Members of a JSON object after the opening brace (nonempty case): a
string key, a colon, a value, then a comma and more members or the closing
brace. Accumulates bindings with Python `dict` insertion semantics. -/
def parseFields : Nat → List Char → List (String × Json) → Option (Json × List Char)
  | 0, _, _ => none
  | fuel + 1, l, acc =>
    match skipWs l with
    | '"' :: cs =>
      match parseStringBody cs with
      | some (k, rest) =>
        match skipWs rest with
        | ':' :: rest2 =>
          match parseValue fuel rest2 with
          | some (v, rest3) =>
            let acc2 := insertKey acc (String.mk k) v
            match skipWs rest3 with
            | ',' :: rest4 => parseFields fuel rest4 acc2
            | '}' :: rest4 => some (.obj acc2, rest4)
            | _ => none
          | none => none
        | _ => none
      | none => none
    | _ => none

/-- Elements of a JSON array after the opening bracket (nonempty case). -/
def parseElems : Nat → List Char → List Json → Option (Json × List Char)
  | 0, _, _ => none
  | fuel + 1, l, acc =>
    match parseValue fuel l with
    | some (v, rest) =>
      match skipWs rest with
      | ',' :: rest2 => parseElems fuel rest2 (acc ++ [v])
      | ']' :: rest2 => some (.arr (acc ++ [v]), rest2)
      | _ => none
    | none => none

end

/-- Model of Python `json.loads`: parse one value, allow surrounding
whitespace, require the input to be fully consumed. The fuel is generous;
every recursive step consumes input, so twice the length plus a constant is
always enough. -/
def jsonLoads (s : String) : Option Json :=
  match parseValue (2 * s.data.length + 4) s.data with
  | some (v, rest) => if skipWs rest = [] then some v else none
  | none => none

/-! ### `extract_json_objects` and `remove_json_objects` -/

/-- Lines 394-409 of `__init__.py`: find every non-greedy brace-delimited
match and keep those that `json.loads` accepts. -/
def extract_json_objects (text : String) : List String :=
  ((scanBraces text.data).map String.mk).filter (fun seg => (jsonLoads seg).isSome)

/-- Lines 411-414 of `__init__.py`: delete every non-greedy brace-delimited
match, valid JSON or not. -/
def remove_json_objects (text : String) : String :=
  String.mk (removeScan text.data)

/-! ### Messages, errors, and the agent environment -/

/-- The `function_call` field of a chat-completion message. -/
structure FunctionCallInfo where
  name : String
  arguments : String
deriving Repr, DecidableEq

/-- A `ChatCompletionMessage` returned by the model, as used by `query`:
its text content and optional function call. -/
structure ChoiceMsg where
  content : String
  functionCall : Option FunctionCallInfo
deriving Repr, DecidableEq

/-- One `Choice` of a chat completion: finish reason plus message. -/
structure LLMChoice where
  finishReason : String
  message : ChoiceMsg
deriving Repr, DecidableEq

/-- A history message dict: role, optional content, optional name (the
`ATTR_NAME` key on user messages, the function name on function messages),
optional function call (on dumped assistant messages). -/
structure Msg where
  role : String
  content : Option String
  name : Option String
  functionCall : Option FunctionCallInfo
deriving Repr, DecidableEq

/-- One configured function: the `name` of its `spec` and its executor
`type`. Only these two fields of the configuration are consulted by the
dispatch code under verification. -/
structure FnSetting where
  specName : String
  fnType : String
deriving Repr, DecidableEq

/-- A host service invocation performed via `hass.services.async_call`. -/
structure HostCall where
  domain : String
  service : String
  data : List (String × Json)
deriving Repr

/-- The `service_call` dict recorded into `services_called` (via
`yaml.dump`); we keep the dict itself. -/
abbrev SvcRec := List (String × Json)

/-- Exceptions that can escape `query` / `execute_function`.
`outOfFuel` is a modelling artifact of the fuel-indexed recursion; it never
occurs at sufficient fuel. Modelled from the spec: the repository's
`exceptions` module is not under `src/`; per the spec (a parse failure must
surface as an error result rather than crash the turn) its custom exceptions
`FunctionNotFound` and `ParseArgumentsFailed` are `HomeAssistantError`
subclasses, while `NameError` and `AttributeError` are unhandled. -/
inductive QErr where
  | outOfFuel
  | openAIError (msg : String)
  | functionNotFound (name : String)
  | parseArgumentsFailed (args : String)
  | nameErrorUndefined
  | attributeErrorNoFunctionCall
deriving Repr, DecidableEq

/-- Whether an exception is caught by the `except HomeAssistantError` clause
of `async_process`. -/
def QErr.isHomeAssistantError : QErr → Bool
  | .functionNotFound _ => true
  | .parseArgumentsFailed _ => true
  | _ => false

/-- Rendering of an exception (`str(err)`), used in error speeches. -/
def QErr.text : QErr → String
  | .outOfFuel => "out of fuel"
  | .openAIError m => m
  | .functionNotFound nm => nm
  | .parseArgumentsFailed a => a
  | .nameErrorUndefined => "name _lOGGER is not defined"
  | .attributeErrorNoFunctionCall => "NoneType object has no attribute"

/-- The agent environment: configuration options plus oracles for the
external systems the integration drives. `llm` stands for
`client.chat.completions.create` (given the message list, the function spec
names and the `function_call` mode, it yields a choice or an `OpenAIError`);
`executor` stands for the executor dispatch `get_function_executor(type)`
followed by `execute` (modelled from the spec: the `helpers` module is not
under `src/`; executors are an open set of strategies sharing one execute
contract, so the dispatched result is an oracle of the function setting and
its parsed arguments); `hostFails` tells which host service calls raise;
`promptResult` is the rendered system prompt or a `TemplateError`;
`userName` is the resolved Home Assistant user name; `freshId` is the ulid
generated for a new conversation. -/
structure Env where
  ignoreConvoId : Bool
  attachUsername : Bool
  attachUsernameToPrompt : Bool
  maxFunctionCalls : Nat
  functions : List FnSetting
  llm : List Msg → Option (List String) → Option String → Except String LLMChoice
  executor : FnSetting → Json → String
  hostFails : HostCall → Bool
  promptResult : Except String String
  userName : Option String
  freshId : String
  fuel : Nat

/-! ### The `$ActionRequired` directive loop (lines 348-392) -/

/-- The sentinel token. -/
def sentinel : String := "$ActionRequired"

/-- The other sentinel stripped from responses. -/
def noActionSentinel : String := "$NoActionRequired"

/-- Outcome of one iteration of the directive loop body (lines 351-374),
before the host call is attempted. -/
inductive DirOutcome where
  | skip
  | call (domain service : String) (data : List (String × Json)) (record : SvcRec)
  | err
deriving Repr

/-- Lines 352-372 of `__init__.py` up to the host call: re-parse the
segment, pop `service`, special-case `script` domains (the whole remaining
dict becomes `variables` of a `script.turn_on` call on the script entity),
skip when the service or the remaining dict is empty, otherwise split the
service into domain and name. `err` covers every exception of the `try`
body: a non-dict, a missing `service` key (`KeyError`), a non-string service
(`AttributeError` on `.split`), or a dotless service (`IndexError`). -/
def processDirective (segment : String) : DirOutcome :=
  match jsonLoads segment with
  | none => .err
  | some (.obj kvs) =>
    match lookupKey kvs "service" with
    | none => .err
    | some (.str s) =>
      let rest := eraseKey kvs "service"
      if (splitOnDot s.data).headI = ("script").data then
        let data : List (String × Json) := [("entity_id", .str s), ("variables", .obj rest)]
        .call "script" "turn_on" data (insertKey data "service" (.str "script.turn_on"))
      else if s.data.isEmpty || rest.isEmpty then .skip
      else
        match splitOnDot s.data with
        | d :: nm :: _ => .call (String.mk d) (String.mk nm) rest (insertKey rest "service" (.str s))
        | _ => .err
    | some _ => .err
  | some _ => .err

/-- The loop over extracted segments (lines 350-377), threading the invoked
calls, the `services_called` records and the `service_execution_failed`
flag. Any exception in the body is handled by a handler that itself
dereferences the undefined name `_lOGGER`, raising `NameError`. -/
def runDirectivesAux (hostFails : HostCall → Bool) :
    List String → List HostCall → List SvcRec → Bool →
    Except QErr (List HostCall × List SvcRec × Bool)
  | [], calls, recs, failed => .ok (calls, recs, failed)
  | seg :: rest, calls, recs, failed =>
    match processDirective seg with
    | .skip => runDirectivesAux hostFails rest calls recs failed
    | .err => .error .nameErrorUndefined
    | .call d s data rec =>
      let hc : HostCall := ⟨d, s, data⟩
      if hostFails hc then .error .nameErrorUndefined
      else runDirectivesAux hostFails rest (calls ++ [hc]) (recs ++ [rec]) failed

/-- The error suffix appended when `service_execution_failed` is set
(line 379); dead code, as proven below. -/
def errSuffix : String := "\n\n An error occurred while executing requested service."

/-- The suffix appended by `async_process` when services were called
(line 237). -/
def svcSuffix : String := " \n\nService executed successfully."

/-- Lines 346-392 of `query`: strip backslashes, run the directive loop when
the sentinel occurs, append the error suffix if the (dead) failure flag is
set, remove brace matches, strip both sentinels, strip whitespace. Returns
the invoked host calls, the `services_called` records, and the new content. -/
def processContent (hostFails : HostCall → Bool) (content : String) :
    Except QErr (List HostCall × List SvcRec × String) :=
  let c1 : List Char := content.data.filter (fun ch => ¬ ch = '\\')
  let step : Except QErr (List HostCall × List SvcRec × Bool) :=
    if containsSub sentinel.data c1 then
      runDirectivesAux hostFails (extract_json_objects (String.mk c1)) [] [] false
    else .ok ([], [], false)
  match step with
  | .error e => .error e
  | .ok (calls, recs, failed) =>
    let c2 := if failed then c1 ++ errSuffix.data else c1
    let c3 := removeScan c2
    let c4 := removeSubstring sentinel.data c3
    let c5 := removeSubstring noActionSentinel.data c4
    let c6 := pyStrip c5
    .ok (calls, recs, String.mk c6)

/-! ### The `query` / `execute_function` recursion (lines 300-343, 416-468) -/

/-- Result of `query`: the (in-place mutated) message list, the trace of all
host service calls performed anywhere in the recursion, and either an
exception or the `services_called` records together with the final message. -/
structure QOut where
  messages : List Msg
  hostLog : List HostCall
  result : Except QErr (List SvcRec × ChoiceMsg)
deriving Repr

/-- Result of `execute_function_call` / `execute_function`: the mutated
message list, the host-call trace, and the returned message or an
exception. -/
structure FOut where
  messages : List Msg
  hostLog : List HostCall
  result : Except QErr ChoiceMsg
deriving Repr

/-- Tail of `query` (lines 345-392): post-process the message content and
assemble the result. -/
def finishQuery (env : Env) (msgs : List Msg) (log : List HostCall) (m : ChoiceMsg) : QOut :=
  match processContent env.hostFails m.content with
  | .error e => ⟨msgs, log, .error e⟩
  | .ok (calls, recs, newContent) => ⟨msgs, log ++ calls, .ok (recs, ⟨newContent, m.functionCall⟩)⟩

/-- Lines 440-468: parse the call arguments (raising `ParseArgumentsFailed`
on invalid JSON), run the dispatched executor, append the function-role
result message, and recurse into `query`; the recursive call's
`services_called` is discarded and only its message is returned.
`queryRec` is the recursive reference back into `query` (bound by `query`
itself below). -/
def execute_function (env : Env) (queryRec : List Msg → Nat → QOut) (messages : List Msg)
    (message : ChoiceMsg) (n : Nat) (fn : FnSetting) : FOut :=
  match message.functionCall with
  | none => ⟨messages, [], .error .attributeErrorNoFunctionCall⟩
  | some fc =>
    match jsonLoads fc.arguments with
    | none => ⟨messages, [], .error (.parseArgumentsFailed fc.arguments)⟩
    | some args =>
      let resultStr := env.executor fn args
      let messages2 := messages ++ [⟨"function", some resultStr, some fc.name, none⟩]
      let q := queryRec messages2 n
      match q.result with
      | .error e => ⟨q.messages, q.hostLog, .error e⟩
      | .ok (_innerServices, innerMsg) => ⟨q.messages, q.hostLog, .ok innerMsg⟩

/-- Lines 416-438: look up the named function among the configured specs;
dispatch to `execute_function` when found, raise `FunctionNotFound`
otherwise. -/
def execute_function_call (env : Env) (queryRec : List Msg → Nat → QOut) (messages : List Msg)
    (message : ChoiceMsg) (n : Nat) : FOut :=
  match message.functionCall with
  | none => ⟨messages, [], .error .attributeErrorNoFunctionCall⟩
  | some fc =>
    match env.functions.find? (fun s => s.specName = fc.name) with
    | some fn => execute_function env queryRec messages message n fn
    | none => ⟨messages, [], .error (.functionNotFound fc.name)⟩

/-- Lines 313-318: the `function_call` request parameter is `"none"` exactly
when `n_requests` equals the configured maximum function calls, `"auto"`
otherwise. -/
def functionCallMode (env : Env) (n : Nat) : String :=
  if n = env.maxFunctionCalls then "none" else "auto"

/-- Lines 300-392 of `__init__.py`, fuel-indexed: send the messages with the
function specs and the `function_call` mode (`"none"` once `n_requests`
equals the configured maximum, `"auto"` otherwise, both omitted when no
functions are configured); on a `function_call` finish reason dispatch
through `execute_function_call` with the incremented counter; post-process
the resulting message content. -/
def query (env : Env) : Nat → List Msg → Nat → QOut
  | 0, messages, _ => ⟨messages, [], .error .outOfFuel⟩
  | f + 1, messages, n =>
    let fns := env.functions.map (fun s => s.specName)
    let modeStr := functionCallMode env n
    let fnsOpt : Option (List String) := if fns.length = 0 then none else some fns
    let modeOpt : Option String := if fns.length = 0 then none else some modeStr
    match env.llm messages fnsOpt modeOpt with
    | .error e => ⟨messages, [], .error (.openAIError e)⟩
    | .ok choice =>
      if choice.finishReason = "function_call" then
        let fr := execute_function_call env (query env f) messages choice.message (n + 1)
        match fr.result with
        | .error e => ⟨fr.messages, fr.hostLog, .error e⟩
        | .ok m =>
          let q := finishQuery env fr.messages fr.hostLog m
          ⟨q.messages, q.hostLog, q.result⟩
      else finishQuery env messages [] choice.message

/-! ### `async_process` (lines 161-244) -/

/-- The per-agent conversation history `self.history`: a dict from
conversation id to message list. -/
abbrev History := List (String × List Msg)

/-- Dict lookup in the history. -/
def histLookup (h : History) (k : String) : Option (List Msg) :=
  (h.find? (fun p => p.1 = k)).map (fun p => p.2)

/-- Dict update in the history (replace in place or append). -/
def histInsert (h : History) (k : String) (v : List Msg) : History :=
  match h with
  | [] => [(k, v)]
  | (k0, v0) :: t => if k0 = k then (k0, v) :: t else (k0, v0) :: histInsert t k v

/-- The conversation input handed over by the host. -/
structure ConvInput where
  text : String
  conversationId : Option String
deriving Repr, DecidableEq

/-- Outcome of a conversation turn as observed by the host: an error
conversation result, a successful result carrying the spoken response, or an
unhandled exception escaping `async_process`. -/
inductive TurnResult where
  | errorResult (message : String) (conversationId : Option String)
  | success (speech : String) (conversationId : Option String)
  | crash (e : QErr)
deriving Repr

/-- Outcome of lines 164-207: either the `TemplateError` early return (with
the conversation id in scope there), or the initial message list, the
conversation id, and whether `messages` aliases a stored history list. -/
inductive InitOut where
  | templateError (err : String) (conversationId : Option String)
  | ready (conversationId : Option String) (messages : List Msg) (aliased : Bool)
deriving Repr

/-- An apostrophe (used in prompt text). -/
def apos : Char := Char.ofNat 39

/-- The user-name prompt prefix of line 189. -/
def userNamePromptPrefix (nm : String) : String :=
  "User" ++ String.mk [apos] ++ "s name: " ++ nm ++ "\n"

/-- Lines 201-205: the user message, carrying the user name under
`ATTR_NAME` when the attach-username option is set. -/
def userMsgOf (env : Env) (input : ConvInput) : Msg :=
  ⟨"user", some input.text, if env.attachUsername then env.userName else none, none⟩

/-- Lines 164-207 of `async_process`: select or create the conversation id
and the initial message list. When the incoming conversation id is in the
history: with the ignore option set the id becomes `None` and the messages
stay empty, otherwise the stored list is reused (aliased). Otherwise: the id
is `None` (ignore set) or a fresh ulid, and the system prompt is rendered
(optionally prefixed with the user name), returning early on
`TemplateError`. In every branch, the user message (optionally carrying the
user name) is appended at the end. -/
def buildInit (env : Env) (st : History) (input : ConvInput) : InitOut :=
  let userMsg : Msg := userMsgOf env input
  match input.conversationId.bind (histLookup st) with
  | some prev =>
    if env.ignoreConvoId then .ready none ([] ++ [userMsg]) false
    else .ready input.conversationId (prev ++ [userMsg]) true
  | none =>
    let convId : Option String := if env.ignoreConvoId then none else some env.freshId
    match env.promptResult with
    | .error err => .templateError err convId
    | .ok prompt0 =>
      let prompt :=
        if env.attachUsernameToPrompt then
          match env.userName with
          | some nm => userNamePromptPrefix nm ++ prompt0
          | none => prompt0
        else prompt0
      .ready convId ([⟨"system", some prompt, none, none⟩] ++ [userMsg]) false

/-- Lines 161-244 of `__init__.py`: build the initial messages, run `query`,
convert `OpenAIError` and `HomeAssistantError` into error conversation
results, store the (in-place mutated) message list back into the history
when the conversation id is not `None`, append the success suffix when
services were called, and speak the final content. Returns the turn outcome
and the new history. -/
def async_process (env : Env) (st : History) (input : ConvInput) : TurnResult × History :=
  match buildInit env st input with
  | .templateError err cid =>
    (.errorResult ("Sorry, I had a problem with my template: " ++ err) cid, st)
  | .ready cid msgs1 aliased =>
    let q := query env env.fuel msgs1 0
    let stMut : History :=
      match input.conversationId with
      | some cid0 => if aliased then histInsert st cid0 q.messages else st
      | none => st
    match q.result with
    | .error (.openAIError m) =>
      (.errorResult ("Sorry, I had a problem talking to OpenAI: " ++ m) cid, stMut)
    | .error e =>
      if e.isHomeAssistantError then
        (.errorResult ("Something went wrong: " ++ e.text) cid, stMut)
      else (.crash e, stMut)
    | .ok (recs, respMsg) =>
      let dumped : Msg := ⟨"assistant", some respMsg.content, none, respMsg.functionCall⟩
      let msgs2 := q.messages ++ [dumped]
      let st2 : History :=
        match cid with
        | some c => histInsert stMut c msgs2
        | none => stMut
      let speech :=
        if recs.length > 0 then respMsg.content ++ svcSuffix else respMsg.content
      (.success speech cid, st2)

/-! ### `async_setup_entry` (lines 106-132) -/

/-- Outcome of `validate_authentication` (modelled from the spec: the
`helpers` module is not under `src/`; setup validates the API credentials
against the LLM endpoint, raising `AuthenticationError` — a subclass of
`OpenAIError` — on bad credentials, or another `OpenAIError` on other
client failures). -/
inductive AuthOutcome where
  | ok
  | authenticationError (msg : String)
  | otherOpenAIError (msg : String)
deriving Repr, DecidableEq

/-- The host-managed per-entry state written by setup. -/
structure HassData where
  agentRegistered : Bool
  storedApiKey : Option String
deriving Repr, DecidableEq

/-- Lines 106-132 of `__init__.py`: validate credentials; on
`AuthenticationError` return `False` without registering; on any other
`OpenAIError` raise `ConfigEntryNotReady` (the `Except.error` case); on
success construct the agent, store it and the API key in `hass.data`, and
register it as the conversation agent, returning `True`. -/
def async_setup_entry (auth : AuthOutcome) (apiKey : String) : Except String (Bool × HassData) :=
  match auth with
  | .authenticationError _ => .ok (false, ⟨false, none⟩)
  | .otherOpenAIError m => .error m
  | .ok => .ok (true, ⟨true, some apiKey⟩)

/-! ### Concrete environments used by witnesses -/

/-- An environment whose model always requests the configured function with
arguments that are not valid JSON. -/
def envParseFail : Env :=
  { ignoreConvoId := false
    attachUsername := false
    attachUsernameToPrompt := false
    maxFunctionCalls := 1
    functions := [⟨"execute_services", "native"⟩]
    llm := fun _ _ _ => .ok ⟨"function_call", ⟨"", some ⟨"execute_services", "not json"⟩⟩⟩
    executor := fun _ _ => "ok"
    hostFails := fun _ => false
    promptResult := .ok "PROMPT"
    userName := none
    freshId := "NEWID"
    fuel := 2 }

/-- An environment whose model requests the configured function once (with
valid JSON arguments) and then answers with a directive-bearing text
message. -/
def envDispatch : Env :=
  { ignoreConvoId := false
    attachUsername := false
    attachUsernameToPrompt := false
    maxFunctionCalls := 1
    functions := [⟨"execute_services", "native"⟩]
    llm := fun msgs _ _ =>
      if msgs.any (fun m => m.role = "function") then
        .ok ⟨"stop", ⟨"Turned it on! $ActionRequired \x7b\"service\": \"light.turn_on\", \"entity_id\": \"light.x\"\x7d", none⟩⟩
      else
        .ok ⟨"function_call", ⟨"", some ⟨"execute_services", "\x7b\"a\": 1\x7d"⟩⟩⟩
    executor := fun _ _ => "done"
    hostFails := fun _ => false
    promptResult := .ok "PROMPT"
    userName := none
    freshId := "NEWID"
    fuel := 5 }

/-- An environment whose model requests a function call on every request
except when `function_call="none"` is sent, which it honours. -/
def envRespect : Env :=
  { ignoreConvoId := false
    attachUsername := false
    attachUsernameToPrompt := false
    maxFunctionCalls := 1
    functions := [⟨"execute_services", "native"⟩]
    llm := fun _ _ mode =>
      if mode = some "none" then .ok ⟨"stop", ⟨"Done.", none⟩⟩
      else .ok ⟨"function_call", ⟨"", some ⟨"execute_services", "\x7b\x7d"⟩⟩⟩
    executor := fun _ _ => "ok"
    hostFails := fun _ => false
    promptResult := .ok "PROMPT"
    userName := none
    freshId := "NEWID"
    fuel := 2 }

/-- `envDispatch` with the ignore-conversation-id option set. -/
def envIgnore : Env :=
  { envDispatch with ignoreConvoId := true }

/-- An environment whose model immediately answers with a service directive
and whose host rejects every service call. -/
def envHostFail : Env :=
  { envDispatch with
    hostFails := fun _ => true
    llm := fun _ _ _ => .ok ⟨"stop",
      ⟨"Doing it. $ActionRequired \x7b\"service\": \"light.turn_on\", \"entity_id\": \"light.x\"\x7d", none⟩⟩
    fuel := 1 }

/-! ### Structured directive contents (for the C1 analysis)

A spec-side description of model contents of the form
`pre ++ "$ActionRequired" ++ sep1 ++ dir1 ++ sep2 ++ dir2 ++ ...` where each
`dir` is a flat JSON object with plain string keys and values. -/

/-- Characters that may appear in the keys and string values of a flat
directive: no braces, no quote, no backslash, no newline, no control
characters. -/
def plainChar (c : Char) : Bool :=
  !(c == '{') && !(c == '}') && !(c == '"') && !(c == '\\') && decide (32 ≤ c.toNat)

/-- Characters that may appear between directives: no opening brace (so no
spurious match starts there) and no backslash (so the global backslash strip
leaves them alone). -/
def sepChar (c : Char) : Bool :=
  !(c == '{') && !(c == '\\')

/-- Every character of the string is plain. -/
def plainStr (s : String) : Prop := ∀ c ∈ s.data, plainChar c = true

/-- Every character of the string is a separator character. -/
def sepStr (s : String) : Prop := ∀ c ∈ s.data, sepChar c = true

/-- One rendered key/value member of a flat JSON object. -/
def renderPair (k v : String) : String := "\"" ++ k ++ "\":\"" ++ v ++ "\""

/-- The comma-joined members of a flat JSON object. -/
def renderPairs : List (String × String) → String
  | [] => ""
  | [kv] => renderPair kv.1 kv.2
  | kv :: rest => renderPair kv.1 kv.2 ++ "," ++ renderPairs rest

/-- A rendered flat JSON object. -/
def renderDirective (kvs : List (String × String)) : String :=
  "\x7b" ++ renderPairs kvs ++ "\x7d"

/-- Alternating separators and rendered directives. -/
def renderBody : List (String × List (String × String)) → String
  | [] => ""
  | (sep, kvs) :: rest => sep ++ renderDirective kvs ++ renderBody rest

/-- A model content: plain text, the sentinel, then separated directives and
a trailing separator. -/
def renderContent (pre : String) (parts : List (String × List (String × String)))
    (tail : String) : String :=
  pre ++ sentinel ++ renderBody parts ++ tail

/-- The host call the specification prescribes for a flat non-`script`
directive (named after the claim wording: the service string is split into
domain and service name, the remaining keys are passed as the data). -/
def specDirectiveCall (kvs : List (String × String)) : HostCall :=
  let sv := ((kvs.find? (fun kv => kv.1 = "service")).map (fun kv => kv.2)).getD ""
  ⟨String.mk ((splitOnDot sv.data).headI),
   String.mk (((splitOnDot sv.data).tail).headI),
   (kvs.filter (fun kv => ¬ kv.1 = "service")).map (fun kv => (kv.1, Json.str kv.2))⟩

/-- A flat directive suitable for the amended C1 statement: plain keys and
values, distinct keys, at least two members, and a `service` value of a
dotted non-`script` domain. -/
def flatDirectiveOk (kvs : List (String × String)) : Prop :=
  (∀ kv ∈ kvs, plainStr kv.1 ∧ plainStr kv.2) ∧
  (kvs.map Prod.fst).Nodup ∧
  2 ≤ kvs.length ∧
  ∃ sv d nm r, ("service", sv) ∈ kvs ∧ splitOnDot sv.data = d :: nm :: r ∧
    ¬ d = ("script").data

/-! ### Helper lemmas -/

theorem splitOnDot_no_dot_append (a b : List Char) (ha : ∀ c ∈ a, ¬ c = '.') :
    splitOnDot (a ++ '.' :: b) = a :: splitOnDot b := by
  induction a with
  | nil => simp [splitOnDot]
  | cons c t ih =>
    have hc : ¬ c = '.' := ha c (List.mem_cons_self c t)
    have ht : ∀ x ∈ t, ¬ x = '.' := fun x hx => ha x (List.mem_cons_of_mem c hx)
    simp [splitOnDot, hc, ih ht]

theorem script_chars_no_dot : ∀ c ∈ ("script").data, ¬ c = '.' := by decide

/-! ### Claim C7 -/

/-- Claim C7: `async_setup_entry` validates the API credentials before
registering the agent: an `AuthenticationError` makes it return `False` with
no agent registered, any other `OpenAIError` raises `ConfigEntryNotReady`,
and only on successful validation is the agent registered (with the API key
stored in host-managed state) and `True` returned. -/
theorem async_setup_entry_spec (key : String) :
    (∀ m, async_setup_entry (.authenticationError m) key = .ok (false, ⟨false, none⟩)) ∧
    (∀ m, async_setup_entry (.otherOpenAIError m) key = .error m) ∧
    async_setup_entry .ok key = .ok (true, ⟨true, some key⟩) :=
  ⟨fun _ => rfl, fun _ => rfl, rfl⟩

/-! ### Claim C5 -/

/-- Claim C5 (amended): a parsed directive whose `service` string starts
with `script.` is executed as `script.turn_on` on that entity with the
remaining keys as `variables`; a directive of any other domain whose
service is nonempty, contains a dot, and has at least one key besides
`service` is executed as-is with the service split into domain and name; a
non-`script` directive whose service is empty or which has no key besides
`service` is silently skipped; and a non-`script` directive whose service
is nonempty but contains no dot hits the `IndexError` of
`service.split(".")[1]`, which the broken except handler turns into the
`NameError` that aborts the whole loop. -/
theorem script_directive_special_case (segment s : String) (kvs : List (String × Json))
    (hparse : jsonLoads segment = some (.obj kvs))
    (hsv : lookupKey kvs "service" = some (.str s)) :
    (∀ t, s.data = ("script.").data ++ t →
      processDirective segment = .call "script" "turn_on"
        [("entity_id", .str s), ("variables", .obj (eraseKey kvs "service"))]
        (insertKey [("entity_id", .str s), ("variables", .obj (eraseKey kvs "service"))]
          "service" (.str "script.turn_on"))) ∧
    (∀ d nm rest, splitOnDot s.data = d :: nm :: rest → ¬ d = ("script").data →
      (eraseKey kvs "service").isEmpty = false →
      processDirective segment = .call (String.mk d) (String.mk nm) (eraseKey kvs "service")
        (insertKey (eraseKey kvs "service") "service" (.str s))) ∧
    (¬ (splitOnDot s.data).headI = ("script").data →
      (s.data.isEmpty || (eraseKey kvs "service").isEmpty) = true →
      processDirective segment = .skip) ∧
    (∀ d, splitOnDot s.data = [d] → ¬ d = ("script").data →
      s.data.isEmpty = false → (eraseKey kvs "service").isEmpty = false →
      processDirective segment = .err ∧
      ∀ hostFails calls recs failed,
        runDirectivesAux hostFails [segment] calls recs failed =
          .error .nameErrorUndefined) := by
  refine ⟨?_, ?_, ?_, ?_⟩
  · intro t ht
    have hsplit : splitOnDot s.data = ("script").data :: splitOnDot t := by
      have : s.data = ("script").data ++ '.' :: t := by
        simpa using ht
      rw [this]
      exact splitOnDot_no_dot_append _ _ script_chars_no_dot
    simp [processDirective, hparse, hsv, hsplit, List.headI]
  · intro d nm rest hsplit hd hne
    have hheadI : (splitOnDot s.data).headI = d := by rw [hsplit]; rfl
    have hnonempty : s.data.isEmpty = false := by
      cases hs : s.data with
      | nil => rw [hs] at hsplit; simp [splitOnDot] at hsplit
      | cons c cs => rfl
    simp [processDirective, hparse, hsv, hheadI, hd, hsplit, hnonempty, hne]
  · intro hscript hskip
    simp [processDirective, hparse, hsv, hscript, hskip]
  · intro d hsplit hd hsvne hne
    have hheadI : (splitOnDot s.data).headI = d := by rw [hsplit]; rfl
    have herr : processDirective segment = .err := by
      simp [processDirective, hparse, hsv, hheadI, hd, hsvne, hne, hsplit]
    exact ⟨herr, fun hostFails calls recs failed => by simp [runDirectivesAux, herr]⟩

/-- Witness for C5: a `script` directive with an extra key, a `light`
directive, an empty-service directive, and a dotless-service directive,
each processed as the theorem states. -/
theorem script_directive_special_case_witness :
    processDirective "\x7b\"service\": \"script.wake\", \"speed\": \"fast\"\x7d" =
      .call "script" "turn_on"
        [("entity_id", .str "script.wake"), ("variables", .obj [("speed", .str "fast")])]
        [("entity_id", .str "script.wake"), ("variables", .obj [("speed", .str "fast")]),
          ("service", .str "script.turn_on")] ∧
    processDirective "\x7b\"service\": \"light.turn_on\", \"entity_id\": \"light.x\"\x7d" =
      .call "light" "turn_on" [("entity_id", .str "light.x")]
        [("entity_id", .str "light.x"), ("service", .str "light.turn_on")] ∧
    processDirective "\x7b\"service\": \"\", \"x\": \"y\"\x7d" = .skip ∧
    processDirective "\x7b\"service\": \"light\", \"x\": \"y\"\x7d" = .err ∧
    runDirectivesAux (fun _ => false) ["\x7b\"service\": \"light\", \"x\": \"y\"\x7d"] [] [] false =
      .error .nameErrorUndefined := by
  have h1 : jsonLoads "\x7b\"service\": \"script.wake\", \"speed\": \"fast\"\x7d" =
      some (.obj [("service", .str "script.wake"), ("speed", .str "fast")]) := rfl
  have h2 : jsonLoads "\x7b\"service\": \"light.turn_on\", \"entity_id\": \"light.x\"\x7d" =
      some (.obj [("service", .str "light.turn_on"), ("entity_id", .str "light.x")]) := rfl
  have h3 : jsonLoads "\x7b\"service\": \"\", \"x\": \"y\"\x7d" =
      some (.obj [("service", .str ""), ("x", .str "y")]) := rfl
  have h4 : jsonLoads "\x7b\"service\": \"light\", \"x\": \"y\"\x7d" =
      some (.obj [("service", .str "light"), ("x", .str "y")]) := rfl
  have herr := (script_directive_special_case
    "\x7b\"service\": \"light\", \"x\": \"y\"\x7d" "light"
    [("service", .str "light"), ("x", .str "y")] h4 rfl).2.2.2
    ("light").data (by decide) (by decide) rfl rfl
  refine ⟨?_, ?_, ?_, herr.1, herr.2 (fun _ => false) [] [] false⟩
  · exact (script_directive_special_case
      "\x7b\"service\": \"script.wake\", \"speed\": \"fast\"\x7d" "script.wake"
      [("service", .str "script.wake"), ("speed", .str "fast")] h1 rfl).1
      ("wake").data rfl
  · exact (script_directive_special_case
      "\x7b\"service\": \"light.turn_on\", \"entity_id\": \"light.x\"\x7d" "light.turn_on"
      [("service", .str "light.turn_on"), ("entity_id", .str "light.x")] h2 rfl).2.1
      ("light").data ("turn_on").data [] rfl (by decide) rfl
  · exact (script_directive_special_case
      "\x7b\"service\": \"\", \"x\": \"y\"\x7d" ""
      [("service", .str ""), ("x", .str "y")] h3 rfl).2.2.1 (by decide) rfl

/-- Counterexample to C5 as stated: a directive of domain `light` with no
key besides `service` is a JSON service directive of a non-`script` domain,
yet it is not executed as-is (or at all): the `if not service or not
service_call: continue` guard skips it, and no host service is invoked. -/
theorem nonscript_single_key_directive_skipped :
    processDirective "\x7b\"service\": \"light.turn_on\"\x7d" = .skip ∧
    processContent (fun _ => false) "$ActionRequired \x7b\"service\": \"light.turn_on\"\x7d" =
      .ok ([], [], "") := by
  exact ⟨rfl, rfl⟩


/-! ### Claim C4 -/

/-- Claim C4: when the model's function-call response carries an arguments
string that is not valid JSON, `execute_function` raises
`ParseArgumentsFailed` (a `HomeAssistantError`), and `async_process`
catches it and converts it into an error conversation result, so the turn
returns an error response rather than crashing. -/
theorem parse_failure_yields_error_result (env : Env) (st : History) (input : ConvInput)
    (cid : Option String) (msgs1 : List Msg) (al : Bool) (choice : LLMChoice)
    (fc : FunctionCallInfo) (fn : FnSetting) (f : Nat) (qr : List Msg → Nat → QOut)
    (hinit : buildInit env st input = .ready cid msgs1 al)
    (hfuel : env.fuel = f + 1)
    (hllm : ∀ fns mode, env.llm msgs1 fns mode = .ok choice)
    (hfin : choice.finishReason = "function_call")
    (hfc : choice.message.functionCall = some fc)
    (hfind : env.functions.find? (fun s => s.specName = fc.name) = some fn)
    (hbad : jsonLoads fc.arguments = none) :
    execute_function env qr msgs1 choice.message 1 fn =
      ⟨msgs1, [], .error (.parseArgumentsFailed fc.arguments)⟩ ∧
    QErr.isHomeAssistantError (.parseArgumentsFailed fc.arguments) = true ∧
    (async_process env st input).1 =
      .errorResult ("Something went wrong: " ++ fc.arguments) cid := by
  refine ⟨?_, rfl, ?_⟩
  · simp [execute_function, hfc, hbad]
  · have hq : query env env.fuel msgs1 0 =
        ⟨msgs1, [], .error (.parseArgumentsFailed fc.arguments)⟩ := by
      rw [hfuel]
      simp [query, hllm, hfin, execute_function_call, hfc, hfind, execute_function, hbad]
    simp [async_process, hinit, hq, QErr.isHomeAssistantError, QErr.text]

/-- Witness for C4: a turn against `envParseFail` ends in an error
conversation result carrying the unparseable arguments. -/
theorem parse_failure_yields_error_result_witness :
    (async_process envParseFail [] ⟨"hi", none⟩).1 =
      .errorResult ("Something went wrong: not json") (some "NEWID") :=
  (parse_failure_yields_error_result envParseFail [] ⟨"hi", none⟩ (some "NEWID")
    [⟨"system", some "PROMPT", none, none⟩, ⟨"user", some "hi", none, none⟩] false
    ⟨"function_call", ⟨"", some ⟨"execute_services", "not json"⟩⟩⟩
    ⟨"execute_services", "not json"⟩ ⟨"execute_services", "native"⟩ 1
    (fun _ _ => ⟨[], [], .error .outOfFuel⟩)
    rfl rfl (fun _ _ => rfl) rfl rfl rfl rfl).2.2

/-! ### Claim C6 -/

/-- Claim C6: on a `function_call` finish reason whose named function exists
in the configured list, the loop dispatches the executor for that function,
appends a message with role `function`, the function name and the
stringified executor result, and recurses into `query` with the incremented
request counter; when the named function does not exist, `FunctionNotFound`
is raised. -/
theorem function_call_dispatch (env : Env) (f n : Nat) (msgs : List Msg)
    (choice : LLMChoice) (fc : FunctionCallInfo)
    (hllm : ∀ fns mode, env.llm msgs fns mode = .ok choice)
    (hfin : choice.finishReason = "function_call")
    (hfc : choice.message.functionCall = some fc) :
    (∀ fn args, env.functions.find? (fun s => s.specName = fc.name) = some fn →
      jsonLoads fc.arguments = some args →
      query env (f + 1) msgs n =
        (let inner := query env f
          (msgs ++ [⟨"function", some (env.executor fn args), some fc.name, none⟩]) (n + 1)
         match inner.result with
         | .error e => ⟨inner.messages, inner.hostLog, .error e⟩
         | .ok (_, innerMsg) =>
           let fin := finishQuery env inner.messages inner.hostLog innerMsg
           ⟨fin.messages, fin.hostLog, fin.result⟩)) ∧
    (env.functions.find? (fun s => s.specName = fc.name) = none →
      query env (f + 1) msgs n = ⟨msgs, [], .error (.functionNotFound fc.name)⟩) := by
  constructor
  · intro fn args hfind hargs
    simp only [query, execute_function_call, execute_function, hllm, hfin, hfc, hfind, hargs]
    cases hq : (query env f
        (msgs ++ [⟨"function", some (env.executor fn args), some fc.name, none⟩]) (n + 1)).result with
    | error e => simp [hq]
    | ok p => obtain ⟨svc, m⟩ := p; simp [hq, finishQuery]
  · intro hfind
    simp [query, execute_function_call, hllm, hfin, hfc, hfind]

/-- Witness for C6: against `envDispatch`, the first frame appends the
function-result message and recurses. -/
theorem function_call_dispatch_witness :
    query envDispatch 2 [] 0 =
      (let inner := query envDispatch 1
        ([] ++ [⟨"function", some "done", some "execute_services", none⟩]) (0 + 1)
       match inner.result with
       | .error e => ⟨inner.messages, inner.hostLog, .error e⟩
       | .ok (_, innerMsg) =>
         let fin := finishQuery envDispatch inner.messages inner.hostLog innerMsg
         ⟨fin.messages, fin.hostLog, fin.result⟩) := by
  have h := (function_call_dispatch envDispatch 1 0 []
    ⟨"function_call", ⟨"", some ⟨"execute_services", "\x7b\"a\": 1\x7d"⟩⟩⟩
    ⟨"execute_services", "\x7b\"a\": 1\x7d"⟩
    (fun _ _ => rfl) rfl rfl).1
    ⟨"execute_services", "native"⟩ (.obj [("a", .num "1")]) rfl rfl
  exact h


/-! ### Claim C2 -/

/-- Fuel-safety and message-growth of `execute_function`, assuming them of
the recursive reference: no `outOfFuel` escape and at most one appended
function message plus whatever the recursion appends. -/
theorem execute_function_bounded (env : Env) (qr : List Msg → Nat → QOut)
    (msgs : List Msg) (m : ChoiceMsg) (n B : Nat) (fn : FnSetting)
    (hq : ∀ msgs2, ¬ (qr msgs2 n).result = .error .outOfFuel ∧
      (qr msgs2 n).messages.length ≤ msgs2.length + B) :
    ¬ (execute_function env qr msgs m n fn).result = .error .outOfFuel ∧
    (execute_function env qr msgs m n fn).messages.length ≤ msgs.length + 1 + B := by
  cases hmf : m.functionCall with
  | none => exact ⟨by simp [execute_function, hmf], by simp [execute_function, hmf]; omega⟩
  | some fc =>
    cases hargs : jsonLoads fc.arguments with
    | none =>
      exact ⟨by simp [execute_function, hmf, hargs],
        by simp [execute_function, hmf, hargs]; omega⟩
    | some args =>
      obtain ⟨h1, h2⟩ :=
        hq (msgs ++ [⟨"function", some (env.executor fn args), some fc.name, none⟩])
      simp only [execute_function, hmf, hargs]
      cases hr : (qr (msgs ++ [⟨"function", some (env.executor fn args), some fc.name, none⟩]) n).result with
      | error e =>
        simp only [hr]
        constructor
        · intro hcontra
          simp at hcontra
          rw [hcontra] at hr
          exact h1 hr
        · simp only [List.length_append, List.length_cons, List.length_nil] at h2
          omega
      | ok p =>
        obtain ⟨svc, im⟩ := p
        simp only [hr]
        constructor
        · simp
        · simp only [List.length_append, List.length_cons, List.length_nil] at h2
          omega

/-- Fuel-safety and message-growth of `execute_function_call`, assuming them
of the recursive reference. -/
theorem execute_function_call_bounded (env : Env) (qr : List Msg → Nat → QOut)
    (msgs : List Msg) (m : ChoiceMsg) (n B : Nat)
    (hq : ∀ msgs2, ¬ (qr msgs2 n).result = .error .outOfFuel ∧
      (qr msgs2 n).messages.length ≤ msgs2.length + B) :
    ¬ (execute_function_call env qr msgs m n).result = .error .outOfFuel ∧
    (execute_function_call env qr msgs m n).messages.length ≤ msgs.length + 1 + B := by
  cases hmf : m.functionCall with
  | none => exact ⟨by simp [execute_function_call, hmf], by simp [execute_function_call, hmf]; omega⟩
  | some fc =>
    cases hfind : env.functions.find? (fun s => s.specName = fc.name) with
    | none =>
      exact ⟨by simp [execute_function_call, hmf, hfind],
        by simp [execute_function_call, hmf, hfind]; omega⟩
    | some fn =>
      have := execute_function_bounded env qr msgs m n B fn hq
      simpa [execute_function_call, hmf, hfind] using this

/-- Every exception escaping the directive loop is the `NameError` raised
by the broken handler. -/
theorem runDirectivesAux_error_eq (hf : HostCall → Bool) :
    ∀ (segs : List String) (calls : List HostCall) (recs : List SvcRec) (flag : Bool) (e : QErr),
    runDirectivesAux hf segs calls recs flag = .error e → e = .nameErrorUndefined := by
  intro segs
  induction segs with
  | nil => intro calls recs flag e h; simp [runDirectivesAux] at h
  | cons sg rest ih =>
    intro calls recs flag e h
    simp only [runDirectivesAux] at h
    cases hpd : processDirective sg with
    | skip =>
      rw [hpd] at h
      exact ih calls recs flag e h
    | err =>
      rw [hpd] at h
      cases h
      rfl
    | call d sv data rec =>
      rw [hpd] at h
      by_cases hfail : hf ⟨d, sv, data⟩ = true
      · simp only [if_pos hfail] at h
        cases h
        rfl
      · simp only [if_neg hfail] at h
        exact ih _ _ flag e h

/-- Every exception escaping `processContent` is the `NameError` of the
broken handler. -/
theorem processContent_error_eq (hf : HostCall → Bool) (content : String) (e : QErr)
    (h : processContent hf content = .error e) : e = .nameErrorUndefined := by
  simp only [processContent] at h
  by_cases hs : containsSub sentinel.data (content.data.filter (fun ch => ¬ ch = '\\')) = true
  · rw [if_pos hs] at h
    cases hrun : runDirectivesAux hf
        (extract_json_objects (String.mk (content.data.filter (fun ch => ¬ ch = '\\')))) [] [] false with
    | error e2 =>
      rw [hrun] at h
      cases h
      exact runDirectivesAux_error_eq hf _ _ _ _ _ hrun
    | ok t =>
      obtain ⟨calls, t2⟩ := t
      obtain ⟨recs, flag⟩ := t2
      rw [hrun] at h
      simp at h
  · rw [if_neg hs] at h
    simp at h

/-- Fuel-safety of `finishQuery`: post-processing never yields `outOfFuel`
and keeps the message list. -/
theorem finishQuery_bounded (env : Env) (msgs : List Msg) (log : List HostCall)
    (m : ChoiceMsg) :
    ¬ (finishQuery env msgs log m).result = .error .outOfFuel ∧
    (finishQuery env msgs log m).messages = msgs := by
  cases hp : processContent env.hostFails m.content with
  | error e =>
    have he := processContent_error_eq env.hostFails m.content e hp
    subst he
    simp [finishQuery, hp]
  | ok t =>
    obtain ⟨calls, recs, c⟩ := t
    simp [finishQuery, hp]


/-- Claim C2: the `query` / `execute_function` recursion terminates within
the configured maximum number of function calls: with a model that honours
`function_call="none"` (the documented behaviour of the chat-completions
API), a frame entered at counter `n ≤ N` needs only `N - n + 1` frames (the
`outOfFuel` artifact is unreachable), appends at most `N - n` function
messages, and a frame entered at `n = N` sends the request with
`function_call = "none"` and dispatches no function call at all (its
message list is returned unchanged). -/
theorem function_call_recursion_bounded (env : Env)
    (hresp : ∀ msgs fns c, env.llm msgs fns (some "none") = .ok c →
      ¬ c.finishReason = "function_call") :
    functionCallMode env env.maxFunctionCalls = "none" ∧
    ∀ fuel n msgs, n ≤ env.maxFunctionCalls → env.maxFunctionCalls - n < fuel →
      (¬ (query env fuel msgs n).result = .error .outOfFuel ∧
       (query env fuel msgs n).messages.length ≤ msgs.length + (env.maxFunctionCalls - n) ∧
       (n = env.maxFunctionCalls → (query env fuel msgs n).messages = msgs)) := by
  refine ⟨by simp [functionCallMode], ?_⟩
  intro fuel
  induction fuel with
  | zero => intro n msgs _ hlt; omega
  | succ f ih =>
    intro n msgs hn hlt
    simp only [query]
    by_cases hempty : (env.functions.map (fun s => s.specName)).length = 0
    · simp only [if_pos hempty]
      cases hllm : env.llm msgs none none with
      | error er => simp
      | ok choice =>
        by_cases hfin : choice.finishReason = "function_call"
        · simp only [if_pos hfin]
          have hfnil : env.functions = [] := by
            cases henv : env.functions with
            | nil => rfl
            | cons a b => rw [henv] at hempty; simp at hempty
          cases hmf : choice.message.functionCall with
          | none => simp [execute_function_call, hmf]
          | some fc => simp [execute_function_call, hmf, hfnil]
        · simp only [if_neg hfin]
          have hfq := finishQuery_bounded env msgs [] choice.message
          exact ⟨hfq.1, by rw [hfq.2]; omega, fun _ => hfq.2⟩
    · simp only [if_neg hempty]
      by_cases hmax : n = env.maxFunctionCalls
      · have hmode : functionCallMode env n = "none" := by simp [functionCallMode, hmax]
        rw [hmode]
        cases hllm : env.llm msgs (some (env.functions.map (fun s => s.specName)))
            (some "none") with
        | error er => simp
        | ok choice =>
          have hfin : ¬ choice.finishReason = "function_call" := hresp _ _ _ hllm
          simp only [if_neg hfin]
          have hfq := finishQuery_bounded env msgs [] choice.message
          exact ⟨hfq.1, by rw [hfq.2]; omega, fun _ => hfq.2⟩
      · cases hllm : env.llm msgs (some (env.functions.map (fun s => s.specName)))
            (some (functionCallMode env n)) with
        | error er => simp
        | ok choice =>
          by_cases hfin : choice.finishReason = "function_call"
          · simp only [if_pos hfin]
            have hq : ∀ msgs2, ¬ (query env f msgs2 (n + 1)).result = .error .outOfFuel ∧
                (query env f msgs2 (n + 1)).messages.length ≤
                  msgs2.length + (env.maxFunctionCalls - (n + 1)) := by
              intro msgs2
              have := ih (n + 1) msgs2 (by omega) (by omega)
              exact ⟨this.1, this.2.1⟩
            have hb := execute_function_call_bounded env (query env f) msgs
              choice.message (n + 1) (env.maxFunctionCalls - (n + 1)) hq
            cases hr : (execute_function_call env (query env f) msgs
                choice.message (n + 1)).result with
            | error e =>
              simp only [hr]
              refine ⟨?_, ?_, fun hcontra => absurd hcontra hmax⟩
              · intro hcontra
                simp at hcontra
                rw [hcontra] at hr
                exact hb.1 hr
              · have := hb.2
                omega
            | ok m =>
              simp only [hr]
              have hfq := finishQuery_bounded env
                (execute_function_call env (query env f) msgs choice.message (n + 1)).messages
                (execute_function_call env (query env f) msgs choice.message (n + 1)).hostLog m
              refine ⟨hfq.1, ?_, fun hcontra => absurd hcontra hmax⟩
              rw [hfq.2]
              have := hb.2
              omega
          · simp only [if_neg hfin]
            have hfq := finishQuery_bounded env msgs [] choice.message
            exact ⟨hfq.1, by rw [hfq.2]; omega, fun _ => hfq.2⟩


/-- Witness for C2: against `envRespect` (maximum one function call), fuel 2
suffices from counter 0 and at most one function message is appended. -/
theorem function_call_recursion_bounded_witness :
    functionCallMode envRespect envRespect.maxFunctionCalls = "none" ∧
    (¬ (query envRespect 2 [] 0).result = .error .outOfFuel ∧
     (query envRespect 2 [] 0).messages.length ≤
       (([] : List Msg)).length + (envRespect.maxFunctionCalls - 0) ∧
     (0 = envRespect.maxFunctionCalls → (query envRespect 2 [] 0).messages = [])) := by
  have h := function_call_recursion_bounded envRespect (by
    intro msgs fns c hc
    simp [envRespect] at hc
    rw [← hc]
    decide)
  exact ⟨h.1, h.2 2 0 [] (by decide) (by decide)⟩


/-! ### Claim C3 -/

/-- `execute_function` only appends to the message list, given that the
recursive reference does. -/
theorem execute_function_messages_extend (env : Env) (qr : List Msg → Nat → QOut)
    (msgs : List Msg) (m : ChoiceMsg) (n : Nat) (fn : FnSetting)
    (hqr : ∀ msgs2, ∃ ext, (qr msgs2 n).messages = msgs2 ++ ext) :
    ∃ ext, (execute_function env qr msgs m n fn).messages = msgs ++ ext := by
  cases hmf : m.functionCall with
  | none => exact ⟨[], by simp [execute_function, hmf]⟩
  | some fc =>
    cases hargs : jsonLoads fc.arguments with
    | none => exact ⟨[], by simp [execute_function, hargs, hmf]⟩
    | some args =>
      obtain ⟨ext, hext⟩ :=
        hqr (msgs ++ [⟨"function", some (env.executor fn args), some fc.name, none⟩])
      refine ⟨[⟨"function", some (env.executor fn args), some fc.name, none⟩] ++ ext, ?_⟩
      simp only [execute_function, hmf, hargs]
      cases hr : (qr (msgs ++ [⟨"function", some (env.executor fn args), some fc.name, none⟩]) n).result with
      | error e => simp only [hr]; rw [hext]; simp
      | ok im => simp only [hr]; rw [hext]; simp

/-- `execute_function_call` only appends to the message list, given that the
recursive reference does. -/
theorem execute_function_call_messages_extend (env : Env) (qr : List Msg → Nat → QOut)
    (msgs : List Msg) (m : ChoiceMsg) (n : Nat)
    (hqr : ∀ msgs2, ∃ ext, (qr msgs2 n).messages = msgs2 ++ ext) :
    ∃ ext, (execute_function_call env qr msgs m n).messages = msgs ++ ext := by
  cases hmf : m.functionCall with
  | none => exact ⟨[], by simp [execute_function_call, hmf]⟩
  | some fc =>
    cases hfind : env.functions.find? (fun s => s.specName = fc.name) with
    | none => exact ⟨[], by simp [execute_function_call, hmf, hfind]⟩
    | some fn =>
      obtain ⟨ext, hext⟩ := execute_function_messages_extend env qr msgs m n fn hqr
      exact ⟨ext, by simpa [execute_function_call, hmf, hfind] using hext⟩

/-- `query` only appends to the message list (in-place `messages.append`
mutations). -/
theorem query_messages_extend (env : Env) :
    ∀ (fuel : Nat) (msgs : List Msg) (n : Nat),
    ∃ ext, (query env fuel msgs n).messages = msgs ++ ext := by
  intro fuel
  induction fuel with
  | zero => intro msgs n; exact ⟨[], by simp [query]⟩
  | succ f ih =>
    intro msgs n
    simp only [query]
    by_cases hempty : (env.functions.map (fun s => s.specName)).length = 0 <;>
      [simp only [if_pos hempty]; simp only [if_neg hempty]] <;>
    · cases hllm : env.llm msgs _ _ with
      | error er => exact ⟨[], by simp⟩
      | ok choice =>
        by_cases hfin : choice.finishReason = "function_call"
        · simp only [if_pos hfin]
          obtain ⟨ext, hext⟩ := execute_function_call_messages_extend env (query env f)
            msgs choice.message (n + 1) (fun msgs2 => ih msgs2 (n + 1))
          cases hr : (execute_function_call env (query env f) msgs choice.message (n + 1)).result with
          | error e => exact ⟨ext, by simp only [hr]; exact hext⟩
          | ok m =>
            refine ⟨ext, ?_⟩
            simp only [hr]
            rw [(finishQuery_bounded env _ _ m).2]
            exact hext
        · simp only [if_neg hfin]
          exact ⟨[], by simp [(finishQuery_bounded env msgs [] choice.message).2]⟩

theorem histLookup_insert (h : History) (k : String) (v : List Msg) :
    histLookup (histInsert h k v) k = some v := by
  induction h with
  | nil => simp [histInsert, histLookup]
  | cons p t ih =>
    obtain ⟨k0, v0⟩ := p
    by_cases hk : k0 = k
    · simp [histInsert, histLookup, hk]
    · simp only [histInsert, if_neg hk]
      simp only [histLookup, List.find?]
      simp only [histLookup] at ih
      simpa [hk] using ih

/-- With the ignore option set, `buildInit` never reuses a stored list, never
aliases one, and carries conversation id `None`. -/
theorem buildInit_ignore (env : Env) (st : History) (input : ConvInput)
    (hig : env.ignoreConvoId = true) :
    (∃ err, buildInit env st input = .templateError err none) ∨
    (∃ msgs, buildInit env st input = .ready none msgs false) := by
  unfold buildInit
  cases hl : input.conversationId.bind (histLookup st) with
  | some prev =>
    simp only [hig, if_pos rfl]
    exact Or.inr ⟨_, rfl⟩
  | none =>
    cases hp : env.promptResult with
    | error err =>
      simp only [hig, if_pos rfl]
      exact Or.inl ⟨err, rfl⟩
    | ok prompt0 =>
      simp only [hig, if_pos rfl]
      exact Or.inr ⟨_, rfl⟩


/-- Counterexample to C3 as stated: with the ignore option set and an
incoming conversation id that is already stored, the turn does not begin
from a freshly generated system prompt — its initial message list is only
the new user message, with no system message at all. -/
theorem ignore_skips_system_prompt :
    buildInit envIgnore [("X", [⟨"assistant", some "old", none, none⟩])] ⟨"hi", some "X"⟩ =
      .ready none [⟨"user", some "hi", none, none⟩] false ∧
    ∀ m ∈ [(⟨"user", some "hi", none, none⟩ : Msg)], ¬ m.role = "system" := by
  exact ⟨rfl, by decide⟩

/-- Claim C3 (amended): with the ignore option unset, a turn whose incoming
conversation id has stored history only ever appends to that stored list,
whatever the turn outcome (the stored list is aliased and mutated in
place). With the option set, the stored history is never updated; a turn
whose incoming id is not stored begins from a freshly generated system
prompt followed only by the new user message, while a turn whose id is
stored begins from only the new user message. -/
theorem history_monotone_unless_ignored (env : Env) (st : History) (input : ConvInput) :
    (env.ignoreConvoId = false →
      ∀ cid prev, input.conversationId = some cid → histLookup st cid = some prev →
      ∃ ext, histLookup (async_process env st input).2 cid = some (prev ++ ext)) ∧
    (env.ignoreConvoId = true →
      (async_process env st input).2 = st ∧
      (∀ prompt, input.conversationId.bind (histLookup st) = none →
        env.promptResult = .ok prompt → env.attachUsernameToPrompt = false →
        buildInit env st input =
          .ready none [⟨"system", some prompt, none, none⟩, userMsgOf env input] false) ∧
      (∀ prev, input.conversationId.bind (histLookup st) = some prev →
        buildInit env st input = .ready none [userMsgOf env input] false)) := by
  constructor
  · intro hig cid prev hcid hlook
    have hb : buildInit env st input = .ready (some cid) (prev ++ [userMsgOf env input]) true := by
      simp [buildInit, hcid, hlook, hig]
    obtain ⟨ext, hext⟩ := query_messages_extend env env.fuel (prev ++ [userMsgOf env input]) 0
    simp only [async_process, hb, hcid]
    cases hqr : (query env env.fuel (prev ++ [userMsgOf env input]) 0).result with
    | error e =>
      cases e <;>
      · refine ⟨[userMsgOf env input] ++ ext, ?_⟩
        simp [histLookup_insert, hext, QErr.isHomeAssistantError]
    | ok p =>
      obtain ⟨recs, respMsg⟩ := p
      refine ⟨[userMsgOf env input] ++ ext ++
        [⟨"assistant", some respMsg.content, none, respMsg.functionCall⟩], ?_⟩
      simp [histLookup_insert, hext]
  · intro hig
    refine ⟨?_, ?_, ?_⟩
    · rcases buildInit_ignore env st input hig with ⟨err, hb⟩ | ⟨msgs0, hb⟩
      · simp [async_process, hb]
      · simp only [async_process, hb]
        cases hic : input.conversationId with
        | some cid0 =>
          cases hqr : (query env env.fuel msgs0 0).result with
          | error e => cases e <;> simp [QErr.isHomeAssistantError]
          | ok p => obtain ⟨recs, respMsg⟩ := p; simp
        | none =>
          cases hqr : (query env env.fuel msgs0 0).result with
          | error e => cases e <;> simp [QErr.isHomeAssistantError]
          | ok p => obtain ⟨recs, respMsg⟩ := p; simp
    · intro prompt hnone hp hnp
      simp [buildInit, hnone, hp, hig, hnp]
    · intro prev hsome
      simp [buildInit, hsome, hig]

/-- Witness for C3: a second turn against `envDispatch` with stored history
under id `X` extends that history. -/
theorem history_monotone_unless_ignored_witness :
    ∃ ext, histLookup
      (async_process envDispatch [("X", [⟨"assistant", some "old", none, none⟩])]
        ⟨"again", some "X"⟩).2 "X" =
      some ([⟨"assistant", some "old", none, none⟩] ++ ext) :=
  (history_monotone_unless_ignored envDispatch
    [("X", [⟨"assistant", some "old", none, none⟩])] ⟨"again", some "X"⟩).1
    rfl "X" [⟨"assistant", some "old", none, none⟩] rfl rfl


/-! ### Claim C8 -/

/-- If some extracted segment raises inside the loop body (its directive
errors, or its host call fails), the whole loop aborts with the handler
`NameError`. -/
theorem runDirectivesAux_fails_of_failing_seg (hf : HostCall → Bool) :
    ∀ (segs : List String) (calls : List HostCall) (recs : List SvcRec) (flag : Bool),
    (∃ seg ∈ segs, processDirective seg = .err ∨
      ∃ d sv data rec, processDirective seg = .call d sv data rec ∧ hf ⟨d, sv, data⟩ = true) →
    runDirectivesAux hf segs calls recs flag = .error .nameErrorUndefined := by
  intro segs
  induction segs with
  | nil => intro calls recs flag h; obtain ⟨seg, hmem, _⟩ := h; cases hmem
  | cons sg rest ih =>
    intro calls recs flag h
    obtain ⟨seg, hmem, hfail⟩ := h
    simp only [runDirectivesAux]
    rcases List.mem_cons.mp hmem with hseg | hseg
    · subst hseg
      rcases hfail with herr | ⟨d, sv, data, rec, hcall, hfl⟩
      · rw [herr]
      · rw [hcall]
        simp [hfl]
    · cases hpd : processDirective sg with
      | skip => exact ih calls recs flag ⟨seg, hseg, hfail⟩
      | err => rfl
      | call d sv data rec =>
        by_cases hfl : hf ⟨d, sv, data⟩ = true
        · simp only [if_pos hfl]
        · simp only [if_neg hfl]
          exact ih _ _ flag ⟨seg, hseg, hfail⟩

/-- Claim C8: the exception handler of the `$ActionRequired` loop references
the undefined name `_lOGGER`, so any exception in one directive (a missing
`service` key, a failing host call, and so on) aborts the whole turn with an
unhandled `NameError`; consequently the `service_execution_failed` flag can
never be observed set, the branch appending the error text is dead, and the
turn crashes rather than returning a result. -/
theorem broken_except_handler (env : Env) :
    (∀ segs calls recs flag out,
      runDirectivesAux env.hostFails segs calls recs flag = .ok out → out.2.2 = flag) ∧
    (∀ content calls recs out,
      processContent env.hostFails content = .ok (calls, recs, out) →
      out = String.mk (pyStrip (removeSubstring noActionSentinel.data
        (removeSubstring sentinel.data
          (removeScan (content.data.filter (fun ch => ¬ ch = '\\'))))))) ∧
    (∀ content,
      containsSub sentinel.data (content.data.filter (fun ch => ¬ ch = '\\')) = true →
      (∃ seg ∈ extract_json_objects
          (String.mk (content.data.filter (fun ch => ¬ ch = '\\'))),
        processDirective seg = .err ∨
        ∃ d sv data rec, processDirective seg = .call d sv data rec ∧
          env.hostFails ⟨d, sv, data⟩ = true) →
      processContent env.hostFails content = .error .nameErrorUndefined) ∧
    (∀ st input cid msgs1 al choice f,
      buildInit env st input = .ready cid msgs1 al →
      env.fuel = f + 1 →
      (∀ fns mode, env.llm msgs1 fns mode = .ok choice) →
      ¬ choice.finishReason = "function_call" →
      processContent env.hostFails choice.message.content = .error .nameErrorUndefined →
      (async_process env st input).1 = .crash .nameErrorUndefined) := by
  have hflag : ∀ segs calls recs flag out,
      runDirectivesAux env.hostFails segs calls recs flag = .ok out → out.2.2 = flag := by
    intro segs
    induction segs with
    | nil =>
      intro calls recs flag out h
      simp only [runDirectivesAux] at h
      cases h
      rfl
    | cons sg rest ih =>
      intro calls recs flag out h
      simp only [runDirectivesAux] at h
      cases hpd : processDirective sg with
      | skip => rw [hpd] at h; exact ih calls recs flag out h
      | err => rw [hpd] at h; cases h
      | call d sv data rec =>
        rw [hpd] at h
        by_cases hfl : env.hostFails ⟨d, sv, data⟩ = true
        · simp [hfl] at h
        · simp only [hfl, if_false, Bool.false_eq_true, if_neg (by simp : ¬ False)] at h
          exact ih _ _ flag out h
  refine ⟨hflag, ?_, ?_, ?_⟩
  · intro content calls recs out h
    simp only [processContent] at h
    by_cases hs : containsSub sentinel.data (content.data.filter (fun ch => ¬ ch = '\\')) = true
    · rw [if_pos hs] at h
      cases hrun : runDirectivesAux env.hostFails
          (extract_json_objects (String.mk (content.data.filter (fun ch => ¬ ch = '\\'))))
          [] [] false with
      | error e => rw [hrun] at h; cases h
      | ok t =>
        obtain ⟨calls2, recs2, flag2⟩ := t
        have : flag2 = false := hflag _ _ _ _ _ hrun
        subst this
        rw [hrun] at h
        simp only [Bool.false_eq_true, if_neg (by simp : ¬ (false = true))] at h
        cases h
        rfl
    · rw [if_neg hs] at h
      simp only [Bool.false_eq_true, if_neg (by simp : ¬ (false = true))] at h
      cases h
      rfl
  · intro content hs hex
    simp only [processContent]
    rw [if_pos hs]
    rw [runDirectivesAux_fails_of_failing_seg env.hostFails _ [] [] false hex]
  · intro st input cid msgs1 al choice f hb hfuel hllm hfin hpc
    have hq : (query env env.fuel msgs1 0).result = .error .nameErrorUndefined := by
      rw [hfuel]
      simp only [query]
      by_cases hempty : (env.functions.map (fun s => s.specName)).length = 0 <;>
        [rw [if_pos hempty]; rw [if_neg hempty]] <;>
      · rw [hllm]
        simp only [if_neg hfin]
        simp [finishQuery, hpc]
    simp only [async_process, hb]
    cases hqq : query env env.fuel msgs1 0 with
    | mk ms log r =>
      rw [hqq] at hq
      simp only at hq
      subst hq
      cases input.conversationId <;> simp [QErr.isHomeAssistantError]


/-- Witness for C8: against `envHostFail` (every host call raises), the turn
aborts with the unhandled `NameError`. -/
theorem broken_except_handler_witness :
    (async_process envHostFail [] ⟨"hi", none⟩).1 = .crash .nameErrorUndefined :=
  (broken_except_handler envHostFail).2.2.2 [] ⟨"hi", none⟩ (some "NEWID")
    [⟨"system", some "PROMPT", none, none⟩, ⟨"user", some "hi", none, none⟩] false
    ⟨"stop",
      ⟨"Doing it. $ActionRequired \x7b\"service\": \"light.turn_on\", \"entity_id\": \"light.x\"\x7d", none⟩⟩
    0 rfl rfl (fun _ _ => rfl) (by decide) rfl


/-! ### Claim C9 -/

/-- Claim C9: the `services_called` list of every recursive `query` call made
from `execute_function` is discarded (only the inner message is returned),
and the success suffix of `async_process` is appended exactly when the
top-level `query` run itself extracted service records from the final
top-level model message — never because of services executed during
function-call recursion. Conjunct three exhibits this: a run of
`envDispatch` executes a host service inside the recursion (the host log is
nonempty) while the top-level record list is empty, and the spoken response
carries no suffix. -/
theorem recursion_services_discarded (env : Env) :
    (∀ qr msgs (m : ChoiceMsg) n fn fc args svc im,
      m.functionCall = some fc →
      jsonLoads fc.arguments = some args →
      (qr (msgs ++ [⟨"function", some (env.executor fn args), some fc.name, none⟩]) n).result
        = .ok (svc, im) →
      (execute_function env qr msgs m n fn).result = .ok im) ∧
    (∀ st input cid msgs1 al recs respMsg,
      buildInit env st input = .ready cid msgs1 al →
      (query env env.fuel msgs1 0).result = .ok (recs, respMsg) →
      (async_process env st input).1 =
        .success (if recs.length > 0 then respMsg.content ++ svcSuffix else respMsg.content) cid) ∧
    ((query envDispatch 5
        [⟨"system", some "PROMPT", none, none⟩, ⟨"user", some "turn on", none, none⟩] 0).hostLog =
      [⟨"light", "turn_on", [("entity_id", .str "light.x")]⟩] ∧
     (query envDispatch 5
        [⟨"system", some "PROMPT", none, none⟩, ⟨"user", some "turn on", none, none⟩] 0).result =
      .ok ([], ⟨"Turned it on!", none⟩) ∧
     (async_process envDispatch [] ⟨"turn on", none⟩).1 =
      .success "Turned it on!" (some "NEWID")) := by
  refine ⟨?_, ?_, rfl, rfl, rfl⟩
  · intro qr msgs m n fn fc args svc im hmf hargs hinner
    simp only [execute_function, hmf, hargs, hinner]
  · intro st input cid msgs1 al recs respMsg hb hq
    simp only [async_process, hb]
    cases hqq : query env env.fuel msgs1 0 with
    | mk ms log r =>
      rw [hqq] at hq
      simp only at hq
      subst hq
      cases input.conversationId <;> cases cid <;> simp

/-- Witness for C9: the spoken response of the `envDispatch` turn is the
processed content with no suffix, by the suffix-iff rule at an empty
top-level record list. -/
theorem recursion_services_discarded_witness :
    (async_process envDispatch [] ⟨"turn on", none⟩).1 =
      .success (if ([] : List SvcRec).length > 0
        then "Turned it on!" ++ svcSuffix else "Turned it on!") (some "NEWID") :=
  (recursion_services_discarded envDispatch).2.1 [] ⟨"turn on", none⟩ (some "NEWID")
    [⟨"system", some "PROMPT", none, none⟩, ⟨"user", some "turn on", none, none⟩] false
    [] ⟨"Turned it on!", none⟩ rfl rfl


/-! ### Claim C10 -/

/-- A successful `braceSpan` splits its input at the first closing brace,
with a newline-free interior. -/
theorem braceSpan_split : ∀ {cs m a : List Char}, braceSpan cs = some (m, a) →
    cs = m ++ '}' :: a ∧ '}' ∉ m ∧ '\n' ∉ m := by
  intro cs
  induction cs with
  | nil => intro m a h; simp [braceSpan] at h
  | cons c cs ih =>
    intro m a h
    simp only [braceSpan] at h
    by_cases hc1 : c = '}'
    · rw [if_pos hc1] at h
      cases h
      subst hc1
      simp
    · rw [if_neg hc1] at h
      by_cases hc2 : c = '\n'
      · rw [if_pos hc2] at h; cases h
      · rw [if_neg hc2] at h
        cases hbs : braceSpan cs with
        | none => rw [hbs] at h; cases h
        | some p =>
          obtain ⟨m0, a0⟩ := p
          rw [hbs] at h
          cases h
          obtain ⟨hsplit, hm, hn⟩ := ih hbs
          refine ⟨by rw [hsplit]; simp, ?_, ?_⟩
          · simp only [List.mem_cons]
            rintro (hx | hx)
            · exact hc1 hx.symm
            · exact hm hx
          · simp only [List.mem_cons]
            rintro (hx | hx)
            · exact hc2 hx.symm
            · exact hn hx

/-- Every match returned by the scan is a brace-delimited substring of the
input whose interior contains no closing brace and no newline. -/
theorem scanBraces_shape : ∀ (N : Nat) (l : List Char), l.length ≤ N →
    ∀ seg ∈ scanBraces l, ∃ pre m post,
      seg = '{' :: (m ++ ['}']) ∧ '}' ∉ m ∧ '\n' ∉ m ∧ l = pre ++ seg ++ post := by
  intro N
  induction N with
  | zero =>
    intro l hl seg hseg
    have : l = [] := List.length_eq_zero.mp (Nat.le_zero.mp hl)
    subst this
    simp [scanBraces_nil] at hseg
  | succ n ih =>
    intro l hl seg hseg
    cases l with
    | nil => simp [scanBraces_nil] at hseg
    | cons c cs =>
      simp only [List.length_cons] at hl
      rw [scanBraces_cons] at hseg
      by_cases hc : c = '{'
      · rw [if_pos hc] at hseg
        cases hbs : braceSpan cs with
        | none =>
          rw [hbs] at hseg
          obtain ⟨pre, m, post, h1, h2, h3, h4⟩ := ih cs (by omega) seg hseg
          exact ⟨c :: pre, m, post, h1, h2, h3, by rw [h4]; simp⟩
        | some p =>
          obtain ⟨m0, a⟩ := p
          rw [hbs] at hseg
          obtain ⟨hsplit, hm, hn⟩ := braceSpan_split hbs
          rcases List.mem_cons.mp hseg with hseg | hseg
          · refine ⟨[], m0, a, hseg, hm, hn, ?_⟩
            rw [hseg, hc, hsplit]
            simp
          · have ha : a.length ≤ n := by
              have := braceSpan_length hbs
              omega
            obtain ⟨pre, m, post, h1, h2, h3, h4⟩ := ih a ha seg hseg
            refine ⟨('{' :: (m0 ++ ['}'])) ++ pre, m, post, h1, h2, h3, ?_⟩
            rw [hc, hsplit, h4]
            simp
      · rw [if_neg hc] at hseg
        obtain ⟨pre, m, post, h1, h2, h3, h4⟩ := ih cs (by omega) seg hseg
        exact ⟨c :: pre, m, post, h1, h2, h3, by rw [h4]; simp⟩

/-- The deletion removes exactly the matched characters: lengths add up. -/
theorem removeScan_length : ∀ (N : Nat) (l : List Char), l.length ≤ N →
    (removeScan l).length + ((scanBraces l).map List.length).sum = l.length := by
  intro N
  induction N with
  | zero =>
    intro l hl
    have : l = [] := List.length_eq_zero.mp (Nat.le_zero.mp hl)
    subst this
    simp [removeScan_nil, scanBraces_nil]
  | succ n ih =>
    intro l hl
    cases l with
    | nil => simp [removeScan_nil, scanBraces_nil]
    | cons c cs =>
      simp only [List.length_cons] at hl
      rw [removeScan_cons, scanBraces_cons]
      by_cases hc : c = '{'
      · rw [if_pos hc, if_pos hc]
        cases hbs : braceSpan cs with
        | none =>
          simp only [List.length_cons]
          have := ih cs (by omega)
          omega
        | some p =>
          obtain ⟨m0, a⟩ := p
          obtain ⟨hsplit, _, _⟩ := braceSpan_split hbs
          have ha : a.length ≤ n := by
            have := braceSpan_length hbs
            omega
          have := ih a ha
          have hcs : cs.length = m0.length + 1 + a.length := by
            rw [hsplit]
            simp
            omega
          simp only [List.map_cons, List.sum_cons, List.length_cons, List.length_append,
            List.length_cons, List.length_nil]
          omega
      · rw [if_neg hc, if_neg hc]
        simp only [List.length_cons]
        have := ih cs (by omega)
        omega


/-- Counterexample to C10 as stated: `\x7b"a":\n1\x7d` is a minimal
brace-delimited substring of itself (no interior closing brace) and parses
as valid JSON, yet `extract_json_objects` does not return it and
`remove_json_objects` does not delete it: the regex `.` does not match the
newline. -/
theorem newline_minimal_match_missed :
    jsonLoads "\x7b\"a\":\n1\x7d" = some (.obj [("a", .num "1")]) ∧
    ("\x7b\"a\":\n1\x7d").data = '{' :: (("\"a\":\n1").data ++ ['}']) ∧
    '}' ∉ ("\"a\":\n1").data ∧
    extract_json_objects "\x7b\"a\":\n1\x7d" = [] ∧
    remove_json_objects "\x7b\"a\":\n1\x7d" = "\x7b\"a\":\n1\x7d" := by
  exact ⟨rfl, rfl, by decide, rfl, rfl⟩

/-- Claim C10 (amended): `extract_json_objects` returns exactly the
non-greedy brace-delimited matches — substrings from an opening brace to
the next closing brace with no newline in between — that parse as valid
JSON; `remove_json_objects` deletes exactly those matches whether or not
they are valid JSON (the lengths account for every deleted character).
Consequently a JSON object containing a nested object is neither extracted
whole nor removed whole, and brace-delimited text that is no service
directive is still deleted. -/
theorem extract_remove_minimal_matches :
    (∀ (text : String) (seg : String), seg ∈ extract_json_objects text ↔
      (seg ∈ (scanBraces text.data).map String.mk ∧ (jsonLoads seg).isSome = true)) ∧
    (∀ (text : String) (seg : String), seg ∈ extract_json_objects text →
      ∃ pre m post, seg.data = '{' :: (m ++ ['}']) ∧ '}' ∉ m ∧ '\n' ∉ m ∧
        text.data = pre ++ seg.data ++ post) ∧
    (∀ text : String, (remove_json_objects text).data.length +
      ((scanBraces text.data).map List.length).sum = text.data.length) ∧
    (extract_json_objects "\x7b\"a\": \x7b\"b\": 1\x7d\x7d" = [] ∧
     remove_json_objects "\x7b\"a\": \x7b\"b\": 1\x7d\x7d" = "\x7d") ∧
    (extract_json_objects "ok \x7bnot a directive\x7d ok" = [] ∧
     remove_json_objects "ok \x7bnot a directive\x7d ok" = "ok  ok") := by
  refine ⟨?_, ?_, ?_, ⟨rfl, rfl⟩, ⟨rfl, rfl⟩⟩
  · intro text seg
    simp [extract_json_objects, List.mem_filter]
  · intro text seg hseg
    have hmem : seg ∈ (scanBraces text.data).map String.mk :=
      (by simpa [extract_json_objects, List.mem_filter] using hseg :
        seg ∈ (scanBraces text.data).map String.mk ∧ (jsonLoads seg).isSome = true).1
    obtain ⟨seg0, hseg0, hmk⟩ := List.mem_map.mp hmem
    obtain ⟨pre, m, post, h1, h2, h3, h4⟩ :=
      scanBraces_shape text.data.length text.data (Nat.le_refl _) seg0 hseg0
    refine ⟨pre, m, post, ?_, h2, h3, ?_⟩
    · rw [← hmk]
      exact h1
    · rw [← hmk]
      exact h4
  · intro text
    exact removeScan_length text.data.length text.data (Nat.le_refl _)

/-- Witness for C10: the single match of a simple text is extracted, is
brace-delimited with a newline-free interior, and occurs in the text. -/
theorem extract_remove_minimal_matches_witness :
    ∃ pre m post, ("\x7b\"a\": 1\x7d").data = '{' :: (m ++ ['}']) ∧ '}' ∉ m ∧ '\n' ∉ m ∧
      ("x \x7b\"a\": 1\x7d y").data = pre ++ ("\x7b\"a\": 1\x7d").data ++ post :=
  (extract_remove_minimal_matches).2.1 "x \x7b\"a\": 1\x7d y" "\x7b\"a\": 1\x7d" (by decide)


/-! ### Claim C1 -/

theorem scanBraces_append_skip : ∀ (a l : List Char), (∀ c ∈ a, ¬ c = '{') →
    scanBraces (a ++ l) = scanBraces l := by
  intro a
  induction a with
  | nil => intro l _; rfl
  | cons c cs ih =>
    intro l h
    rw [List.cons_append, scanBraces_cons,
      if_neg (h c (List.mem_cons_self c cs))]
    exact ih l (fun x hx => h x (List.mem_cons_of_mem c hx))

theorem scanBraces_eq_nil : ∀ (l : List Char), (∀ c ∈ l, ¬ c = '{') →
    scanBraces l = [] := by
  intro l h
  have := scanBraces_append_skip l [] h
  simpa using this

theorem braceSpan_clean : ∀ (mid rest : List Char), '}' ∉ mid → '\n' ∉ mid →
    braceSpan (mid ++ '}' :: rest) = some (mid, rest) := by
  intro mid
  induction mid with
  | nil => intro rest _ _; simp [braceSpan]
  | cons c cs ih =>
    intro rest hm hn
    have hc1 : ¬ c = '}' := fun h => hm (by rw [h]; exact List.mem_cons_self _ _)
    have hc2 : ¬ c = '\n' := fun h => hn (by rw [h]; exact List.mem_cons_self _ _)
    rw [List.cons_append]
    simp only [braceSpan, if_neg hc1, if_neg hc2,
      ih rest (fun h => hm (List.mem_cons_of_mem c h)) (fun h => hn (List.mem_cons_of_mem c h))]

theorem scanBraces_match (mid rest : List Char) (hm : '}' ∉ mid) (hn : '\n' ∉ mid) :
    scanBraces ('{' :: (mid ++ '}' :: rest)) = ('{' :: (mid ++ ['}'])) :: scanBraces rest := by
  rw [scanBraces_cons, if_pos rfl, braceSpan_clean mid rest hm hn]

theorem removeScan_append_skip : ∀ (a l : List Char), (∀ c ∈ a, ¬ c = '{') →
    removeScan (a ++ l) = a ++ removeScan l := by
  intro a
  induction a with
  | nil => intro l _; rfl
  | cons c cs ih =>
    intro l h
    rw [List.cons_append, removeScan_cons,
      if_neg (h c (List.mem_cons_self c cs))]
    rw [ih l (fun x hx => h x (List.mem_cons_of_mem c hx))]
    rfl

theorem removeScan_match (mid rest : List Char) (hm : '}' ∉ mid) (hn : '\n' ∉ mid) :
    removeScan ('{' :: (mid ++ '}' :: rest)) = removeScan rest := by
  rw [removeScan_cons, if_pos rfl, braceSpan_clean mid rest hm hn]

theorem removeSubstring_subset (pat : List Char) :
    ∀ (N : Nat) (l : List Char), l.length ≤ N → ∀ c ∈ removeSubstring pat l, c ∈ l := by
  intro N
  induction N with
  | zero =>
    intro l hl
    have : l = [] := List.length_eq_zero.mp (Nat.le_zero.mp hl)
    subst this
    intro c hc
    rw [removeSubstring_nil] at hc
    cases hc
  | succ n ih =>
    intro l hl c hc
    cases l with
    | nil => rw [removeSubstring_nil] at hc; cases hc
    | cons x xs =>
      simp only [List.length_cons] at hl
      rw [removeSubstring_cons] at hc
      by_cases hp : pat.isPrefixOf (x :: xs) ∧ pat ≠ []
      · rw [if_pos hp] at hc
        have hd : (List.drop (pat.length - 1) xs).length ≤ n := by
          have : (List.drop (pat.length - 1) xs).length ≤ xs.length := by
            simp [List.length_drop]
          omega
        have := ih (List.drop (pat.length - 1) xs) hd c hc
        exact List.mem_cons_of_mem x (List.mem_of_mem_drop this)
      · rw [if_neg hp] at hc
        rcases List.mem_cons.mp hc with h | h
        · rw [h]; exact List.mem_cons_self x xs
        · exact List.mem_cons_of_mem x (ih xs (by omega) c h)

theorem dropWhile_keeps_mem (p : Char → Bool) (l : List Char) :
    ∀ c ∈ l.dropWhile p, c ∈ l := by
  induction l with
  | nil => intro c hc; simp at hc
  | cons x xs ih =>
    intro c hc
    rw [List.dropWhile_cons] at hc
    by_cases hx : p x = true
    · rw [if_pos hx] at hc
      exact List.mem_cons_of_mem x (ih c hc)
    · rw [if_neg hx] at hc
      exact hc

theorem pyStrip_subset (l : List Char) : ∀ c ∈ pyStrip l, c ∈ l := by
  intro c hc
  unfold pyStrip at hc
  rw [List.mem_reverse] at hc
  have h2 := dropWhile_keeps_mem pySpace (l.dropWhile pySpace).reverse c hc
  rw [List.mem_reverse] at h2
  exact dropWhile_keeps_mem pySpace l c h2


theorem renderPair_data (k v : String) :
    (renderPair k v).data = '"' :: (k.data ++ '"' :: ':' :: '"' :: (v.data ++ ['"'])) := by
  simp [renderPair]

theorem renderPairs_chars (kvs : List (String × String))
    (h : ∀ kv ∈ kvs, plainStr kv.1 ∧ plainStr kv.2) :
    ∀ c ∈ (renderPairs kvs).data,
      plainChar c = true ∨ c = '"' ∨ c = ':' ∨ c = ',' := by
  induction kvs with
  | nil => intro c hc; simp [renderPairs] at hc
  | cons kv rest ih =>
    have hkv := h kv (List.mem_cons_self kv rest)
    have hpair : ∀ c ∈ (renderPair kv.1 kv.2).data,
        plainChar c = true ∨ c = '"' ∨ c = ':' ∨ c = ',' := by
      intro c hc
      rw [renderPair_data] at hc
      rcases List.mem_cons.mp hc with hc | hc
      · right; left; exact hc
      · rcases List.mem_append.mp hc with hc | hc
        · exact Or.inl (hkv.1 c hc)
        · rcases List.mem_cons.mp hc with hc | hc
          · right; left; exact hc
          · rcases List.mem_cons.mp hc with hc | hc
            · right; right; left; exact hc
            · rcases List.mem_cons.mp hc with hc | hc
              · right; left; exact hc
              · rcases List.mem_append.mp hc with hc | hc
                · exact Or.inl (hkv.2 c hc)
                · rcases List.mem_singleton.mp hc with hc
                  right; left; exact hc
    cases rest with
    | nil =>
      intro c hc
      simp only [renderPairs] at hc
      exact hpair c hc
    | cons kv2 rest2 =>
      intro c hc
      simp only [renderPairs] at hc
      rw [show ((renderPair kv.1 kv.2 ++ "," ++ renderPairs (kv2 :: rest2)).data =
        (renderPair kv.1 kv.2).data ++ ',' :: (renderPairs (kv2 :: rest2)).data) from by simp] at hc
      rcases List.mem_append.mp hc with hc | hc
      · exact hpair c hc
      · rcases List.mem_cons.mp hc with hc | hc
        · right; right; right; exact hc
        · exact ih (fun kv2 h2 => h kv2 (List.mem_cons_of_mem kv h2)) c hc

theorem plainChar_not_bad {c : Char} (h : plainChar c = true) :
    ¬ c = '{' ∧ ¬ c = '}' ∧ ¬ c = '"' ∧ ¬ c = '\\' ∧ ¬ c = '\n' ∧ ¬ c.toNat < 32 := by
  simp only [plainChar, Bool.and_eq_true, Bool.not_eq_true', beq_eq_false_iff_ne,
    ne_eq, decide_eq_true_eq] at h
  obtain ⟨⟨⟨⟨h1, h2⟩, h3⟩, h4⟩, h5⟩ := h
  refine ⟨h1, h2, h3, h4, ?_, by omega⟩
  intro hc
  rw [hc] at h5
  simp at h5

theorem renderPairs_no_bad (kvs : List (String × String))
    (h : ∀ kv ∈ kvs, plainStr kv.1 ∧ plainStr kv.2) :
    ∀ c ∈ (renderPairs kvs).data, ¬ c = '}' ∧ ¬ c = '\n' ∧ ¬ c = '\\' ∧ ¬ c = '{' := by
  intro c hc
  rcases renderPairs_chars kvs h c hc with hp | hp | hp | hp
  · obtain ⟨h1, h2, _, h4, h5, _⟩ := plainChar_not_bad hp
    exact ⟨h2, h5, h4, h1⟩
  all_goals subst hp
  all_goals refine ⟨by decide, by decide, by decide, by decide⟩

theorem parseStringBody_plain : ∀ (k rest : List Char), (∀ c ∈ k, plainChar c = true) →
    parseStringBody (k ++ '"' :: rest) = some (k, rest) := by
  intro k
  induction k with
  | nil => intro rest _; rfl
  | cons c k2 ih =>
    intro rest h
    obtain ⟨_, _, h3, h4, _, h6⟩ := plainChar_not_bad (h c (List.mem_cons_self c k2))
    rw [List.cons_append, parseStringBody_cons_plain c _ h3 h4 h6,
      ih rest (fun x hx => h x (List.mem_cons_of_mem c hx))]

theorem insertKey_of_not_mem (acc : List (String × Json)) (k : String) (v : Json)
    (h : ∀ p ∈ acc, ¬ p.1 = k) : insertKey acc k v = acc ++ [(k, v)] := by
  induction acc with
  | nil => rfl
  | cons p t ih =>
    have hp : ¬ p.1 = k := h p (List.mem_cons_self p t)
    simp only [insertKey, if_neg hp, List.cons_append]
    rw [ih (fun q hq => h q (List.mem_cons_of_mem p hq))]


theorem skipWs_cons_false {c : Char} {l : List Char} (h : jsonWs c = false) :
    skipWs (c :: l) = c :: l := by
  simp [skipWs, List.dropWhile_cons, h]

theorem mk_data_eq (s : String) : String.mk s.data = s := rfl

theorem parseFields_step (fuel : Nat) (cs : List Char) (acc : List (String × Json)) :
    parseFields (fuel + 1) ('"' :: cs) acc =
      (match parseStringBody cs with
      | some (k, rest) =>
        match skipWs rest with
        | ':' :: rest2 =>
          match parseValue fuel rest2 with
          | some (v, rest3) =>
            match skipWs rest3 with
            | ',' :: rest4 => parseFields fuel rest4 (insertKey acc (String.mk k) v)
            | '}' :: rest4 => some (.obj (insertKey acc (String.mk k) v), rest4)
            | _ => none
          | none => none
        | _ => none
      | none => none) := rfl

theorem parseValue_str_step (fuel : Nat) (cs : List Char) :
    parseValue (fuel + 1) ('"' :: cs) =
      (match parseStringBody cs with
       | some (b, rest) => some (.str (String.mk b), rest)
       | none => none) := rfl

theorem parseFields_render :
    ∀ (kvs : List (String × String)) (fuel : Nat) (acc : List (String × Json)) (tail : List Char),
    (∀ kv ∈ kvs, plainStr kv.1 ∧ plainStr kv.2) →
    ((kvs.map Prod.fst).Nodup) →
    (∀ kv ∈ kvs, ∀ p ∈ acc, ¬ p.1 = kv.1) →
    2 * kvs.length ≤ fuel →
    ¬ kvs = [] →
    parseFields fuel ((renderPairs kvs).data ++ '}' :: tail) acc =
      some (.obj (acc ++ kvs.map (fun kv => (kv.1, Json.str kv.2))), tail) := by
  intro kvs
  induction kvs with
  | nil => intro fuel acc tail _ _ _ _ hne; exact absurd rfl hne
  | cons kv rest ih =>
    intro fuel acc tail hplain hnodup hdisj hfuel _
    have hkv := hplain kv (List.mem_cons_self kv rest)
    have hkeyne : ∀ p ∈ acc, ¬ p.1 = kv.1 := hdisj kv (List.mem_cons_self kv rest)
    obtain ⟨g, rfl⟩ : ∃ g, fuel = g + 2 := ⟨fuel - 2, by simp at hfuel; omega⟩
    cases rest with
    | nil =>
      have hL : (renderPairs [kv]).data ++ '}' :: tail
          = '"' :: (kv.1.data ++ '"' :: (':' :: '"' :: (kv.2.data ++ '"' :: '}' :: tail))) := by
        simp [renderPairs, renderPair]
      rw [hL]
      rw [show g + 2 = (g + 1) + 1 from rfl, parseFields_step,
        parseStringBody_plain kv.1.data _ hkv.1]
      dsimp only
      rw [show skipWs (':' :: ('"' :: (kv.2.data ++ '"' :: '}' :: tail)))
          = ':' :: ('"' :: (kv.2.data ++ '"' :: '}' :: tail)) from skipWs_cons_false (by decide)]
      show (match parseValue (g + 1) ('"' :: (kv.2.data ++ '"' :: '}' :: tail)) with
        | some (v, rest3) =>
          match skipWs rest3 with
          | ',' :: rest4 => parseFields (g + 1) rest4 (insertKey acc (String.mk kv.1.data) v)
          | '}' :: rest4 => some (.obj (insertKey acc (String.mk kv.1.data) v), rest4)
          | _ => none
        | none => none) = _
      rw [parseValue_str_step, parseStringBody_plain kv.2.data _ hkv.2]
      dsimp only
      rw [show skipWs ('}' :: tail) = '}' :: tail from skipWs_cons_false (by decide)]
      show some (Json.obj (insertKey acc (String.mk kv.1.data)
          (Json.str (String.mk kv.2.data))), tail) = _
      rw [mk_data_eq, mk_data_eq, insertKey_of_not_mem acc kv.1 (.str kv.2) hkeyne]
      rfl
    | cons kv2 rest2 =>
      have hL : (renderPairs (kv :: kv2 :: rest2)).data ++ '}' :: tail
          = '"' :: (kv.1.data ++ '"' :: (':' :: '"' :: (kv.2.data ++ '"' :: ',' ::
              ((renderPairs (kv2 :: rest2)).data ++ '}' :: tail)))) := by
        simp [renderPairs, renderPair]
      rw [hL]
      rw [show g + 2 = (g + 1) + 1 from rfl, parseFields_step,
        parseStringBody_plain kv.1.data _ hkv.1]
      dsimp only
      rw [show skipWs (':' :: ('"' :: (kv.2.data ++ '"' :: ',' ::
            ((renderPairs (kv2 :: rest2)).data ++ '}' :: tail))))
          = ':' :: ('"' :: (kv.2.data ++ '"' :: ',' ::
            ((renderPairs (kv2 :: rest2)).data ++ '}' :: tail)))
          from skipWs_cons_false (by decide)]
      show (match parseValue (g + 1) ('"' :: (kv.2.data ++ '"' :: ',' ::
          ((renderPairs (kv2 :: rest2)).data ++ '}' :: tail))) with
        | some (v, rest3) =>
          match skipWs rest3 with
          | ',' :: rest4 => parseFields (g + 1) rest4 (insertKey acc (String.mk kv.1.data) v)
          | '}' :: rest4 => some (.obj (insertKey acc (String.mk kv.1.data) v), rest4)
          | _ => none
        | none => none) = _
      rw [parseValue_str_step, parseStringBody_plain kv.2.data _ hkv.2]
      dsimp only
      rw [show skipWs (',' :: ((renderPairs (kv2 :: rest2)).data ++ '}' :: tail))
          = ',' :: ((renderPairs (kv2 :: rest2)).data ++ '}' :: tail)
          from skipWs_cons_false (by decide)]
      show parseFields (g + 1) ((renderPairs (kv2 :: rest2)).data ++ '}' :: tail)
          (insertKey acc (String.mk kv.1.data) (Json.str (String.mk kv.2.data))) = _
      rw [mk_data_eq, mk_data_eq, insertKey_of_not_mem acc kv.1 (.str kv.2) hkeyne]
      have hplain2 : ∀ x ∈ kv2 :: rest2, plainStr x.1 ∧ plainStr x.2 :=
        fun x hx => hplain x (List.mem_cons_of_mem kv hx)
      have hnodup2 : ((kv2 :: rest2).map Prod.fst).Nodup := by
        simp only [List.map_cons, List.nodup_cons] at hnodup ⊢
        exact ⟨hnodup.2.1, hnodup.2.2⟩
      have hdisj2 : ∀ x ∈ kv2 :: rest2, ∀ p ∈ acc ++ [(kv.1, Json.str kv.2)], ¬ p.1 = x.1 := by
        intro x hx p hp
        rcases List.mem_append.mp hp with hp | hp
        · exact hdisj x (List.mem_cons_of_mem kv hx) p hp
        · rcases List.mem_singleton.mp hp with rfl
          simp only [List.map_cons, List.nodup_cons] at hnodup
          intro hcontra
          exact hnodup.1 (by
            rw [hcontra]
            exact List.mem_map.mpr ⟨x, hx, rfl⟩)
      have hrec := ih (g + 1) (acc ++ [(kv.1, Json.str kv.2)]) tail hplain2 hnodup2 hdisj2
        (by simp at hfuel ⊢; omega) (by simp)
      rw [hrec]
      simp


theorem parseValue_obj_step (fuel : Nat) (cs : List Char) :
    parseValue (fuel + 1) ('{' :: cs) =
      (match skipWs cs with
       | '}' :: rest => some (.obj [], rest)
       | _ => parseFields fuel cs []) := rfl

theorem renderPairs_length_ge : ∀ (kvs : List (String × String)),
    kvs.length ≤ (renderPairs kvs).data.length := by
  intro kvs
  induction kvs with
  | nil => simp [renderPairs]
  | cons kv rest ih =>
    cases rest with
    | nil =>
      show 1 ≤ (renderPair kv.1 kv.2).data.length
      rw [renderPair_data]
      simp
    | cons kv2 rest2 =>
      have h2 : (renderPairs (kv :: kv2 :: rest2)).data =
          (renderPair kv.1 kv.2).data ++ ',' :: (renderPairs (kv2 :: rest2)).data := by
        show (renderPair kv.1 kv.2 ++ "," ++ renderPairs (kv2 :: rest2)).data = _
        simp
      rw [h2]
      simp only [List.length_cons, List.length_append] at ih ⊢
      omega

theorem renderPairs_cons_head : ∀ (kv : String × String) (rest : List (String × String)),
    ∃ T, (renderPairs (kv :: rest)).data = '"' :: T := by
  intro kv rest
  cases rest with
  | nil => exact ⟨_, by rw [show renderPairs [kv] = renderPair kv.1 kv.2 from rfl, renderPair_data]⟩
  | cons kv2 rest2 =>
    refine ⟨kv.1.data ++ '"' :: ':' :: '"' :: (kv.2.data ++ ['"']) ++
      (",").data ++ (renderPairs (kv2 :: rest2)).data, ?_⟩
    show (renderPair kv.1 kv.2 ++ "," ++ renderPairs (kv2 :: rest2)).data = _
    rw [show (renderPair kv.1 kv.2 ++ "," ++ renderPairs (kv2 :: rest2)).data
        = (renderPair kv.1 kv.2).data ++ (",").data ++ (renderPairs (kv2 :: rest2)).data from by simp]
    rw [renderPair_data]
    simp

theorem jsonLoads_render (kvs : List (String × String))
    (hplain : ∀ kv ∈ kvs, plainStr kv.1 ∧ plainStr kv.2)
    (hnodup : (kvs.map Prod.fst).Nodup) :
    jsonLoads (renderDirective kvs) = some (.obj (kvs.map (fun kv => (kv.1, Json.str kv.2)))) := by
  cases kvs with
  | nil => rfl
  | cons kv rest =>
    have hD : (renderDirective (kv :: rest)).data
        = '{' :: ((renderPairs (kv :: rest)).data ++ ['}']) := by
      simp [renderDirective]
    obtain ⟨T, hT⟩ := renderPairs_cons_head kv rest
    have hlen := renderPairs_length_ge (kv :: rest)
    simp only [jsonLoads, hD]
    rw [show 2 * ('{' :: ((renderPairs (kv :: rest)).data ++ ['}'])).length + 4
        = (2 * ('{' :: ((renderPairs (kv :: rest)).data ++ ['}'])).length + 3) + 1 from rfl]
    rw [parseValue_obj_step]
    rw [show skipWs ((renderPairs (kv :: rest)).data ++ ['}'])
        = '"' :: (T ++ ['}']) from by rw [hT]; exact skipWs_cons_false (by decide)]
    show (match parseFields (2 * ('{' :: ((renderPairs (kv :: rest)).data ++ ['}'])).length + 3)
        ((renderPairs (kv :: rest)).data ++ ['}']) [] with
      | some (v, rest2) => if skipWs rest2 = [] then some v else none
      | none => none) = _
    rw [show ((renderPairs (kv :: rest)).data ++ ['}'] : List Char)
        = (renderPairs (kv :: rest)).data ++ '}' :: [] from rfl]
    rw [parseFields_render (kv :: rest) _ [] [] hplain hnodup
      (by intro x _ p hp; cases hp)
      (by
        have hthis := hlen
        simp only [List.length_cons, List.length_append, List.length_nil] at hthis ⊢
        omega)
      (by simp)]
    rfl


theorem lookupKey_render : ∀ (kvs : List (String × String)) (k v : String),
    ((kvs.map Prod.fst).Nodup) → (k, v) ∈ kvs →
    lookupKey (kvs.map (fun kv => (kv.1, Json.str kv.2))) k = some (.str v) := by
  intro kvs
  induction kvs with
  | nil => intro k v _ hmem; cases hmem
  | cons kv rest ih =>
    intro k v hnodup hmem
    by_cases hk : kv.1 = k
    · have hv : kv = (k, v) := by
        rcases List.mem_cons.mp hmem with h | h
        · exact h.symm
        · exfalso
          simp only [List.map_cons, List.nodup_cons] at hnodup
          exact hnodup.1 (by
            rw [hk]
            exact List.mem_map.mpr ⟨(k, v), h, rfl⟩)
      rw [hv]
      simp [lookupKey, List.find?]
    · have hmem2 : (k, v) ∈ rest := by
        rcases List.mem_cons.mp hmem with h | h
        · exfalso; rw [← h] at hk; exact hk rfl
        · exact h
      have hnodup2 : (rest.map Prod.fst).Nodup := by
        simp only [List.map_cons, List.nodup_cons] at hnodup
        exact hnodup.2
      have := ih k v hnodup2 hmem2
      simp only [lookupKey, List.map_cons] at this ⊢
      rw [List.find?_cons, decide_eq_false hk]
      exact this

theorem eraseKey_render : ∀ (kvs : List (String × String)) (k : String),
    eraseKey (kvs.map (fun kv => (kv.1, Json.str kv.2))) k =
      (kvs.filter (fun kv => ¬ kv.1 = k)).map (fun kv => (kv.1, Json.str kv.2)) := by
  intro kvs k
  induction kvs with
  | nil => rfl
  | cons kv rest ih =>
    simp only [eraseKey] at ih ⊢
    simp only [List.map_cons, List.filter_cons]
    simp only [decide_not] at ih
    by_cases hk : kv.1 = k
    · simp [hk, ih]
    · simp [hk, ih]

theorem filter_nonservice_ne_nil (kvs : List (String × String)) (k : String)
    (hnodup : (kvs.map Prod.fst).Nodup) (hlen : 2 ≤ kvs.length) :
    ¬ (kvs.filter (fun kv => ¬ kv.1 = k)) = [] := by
  cases kvs with
  | nil => simp at hlen
  | cons a t =>
    cases t with
    | nil => simp at hlen
    | cons b t2 =>
      by_cases ha : a.1 = k
      · have hb : ¬ b.1 = k := by
          simp only [List.map_cons, List.nodup_cons] at hnodup
          intro hbk
          exact hnodup.1 (by rw [ha, ← hbk]; exact List.mem_cons_self b.1 _)
        intro hcontra
        have hmem : b ∈ (a :: b :: t2).filter (fun kv => ¬ kv.1 = k) :=
          List.mem_filter.mpr ⟨List.mem_cons_of_mem a (List.mem_cons_self b t2), by simp [hb]⟩
        rw [hcontra] at hmem
        cases hmem
      · intro hcontra
        have hmem : a ∈ (a :: b :: t2).filter (fun kv => ¬ kv.1 = k) :=
          List.mem_filter.mpr ⟨List.mem_cons_self a (b :: t2), by simp [ha]⟩
        rw [hcontra] at hmem
        cases hmem

theorem processDirective_render (kvs : List (String × String)) (sv : String)
    (d nm : List Char) (r : List (List Char))
    (hok : flatDirectiveOk kvs)
    (hsv : ("service", sv) ∈ kvs)
    (hsplit : splitOnDot sv.data = d :: nm :: r)
    (hd : ¬ d = ("script").data) :
    processDirective (renderDirective kvs) =
      .call (String.mk d) (String.mk nm)
        ((kvs.filter (fun kv => ¬ kv.1 = "service")).map (fun kv => (kv.1, Json.str kv.2)))
        (insertKey
          ((kvs.filter (fun kv => ¬ kv.1 = "service")).map (fun kv => (kv.1, Json.str kv.2)))
          "service" (.str sv)) := by
  obtain ⟨hplain, hnodup, hlen, _⟩ := hok
  have hparse := jsonLoads_render kvs hplain hnodup
  have hlook := lookupKey_render kvs "service" sv hnodup hsv
  have hsvne : sv.data.isEmpty = false := by
    cases hs : sv.data with
    | nil => rw [hs] at hsplit; simp [splitOnDot] at hsplit
    | cons c cs => rfl
  have hrestne : ((kvs.filter (fun kv => ¬ kv.1 = "service")).map
      (fun kv => (kv.1, Json.str kv.2))).isEmpty = false := by
    have := filter_nonservice_ne_nil kvs "service" hnodup hlen
    cases hf : kvs.filter (fun kv => ¬ kv.1 = "service") with
    | nil => exact absurd hf this
    | cons x xs => rfl
  have hheadI : (splitOnDot sv.data).headI = d := by rw [hsplit]; rfl
  simp only [processDirective, hparse, hlook, eraseKey_render, hsvne, hrestne, hsplit]
  rw [if_neg (show ¬ (d :: nm :: r).headI = ['s', 'c', 'r', 'i', 'p', 't'] from hd)]
  simp


theorem find_service : ∀ (kvs : List (String × String)) (k v : String),
    ((kvs.map Prod.fst).Nodup) → (k, v) ∈ kvs →
    kvs.find? (fun kv => kv.1 = k) = some (k, v) := by
  intro kvs
  induction kvs with
  | nil => intro k v _ hmem; cases hmem
  | cons kv rest ih =>
    intro k v hnodup hmem
    by_cases hk : kv.1 = k
    · have hv : kv = (k, v) := by
        rcases List.mem_cons.mp hmem with h | h
        · exact h.symm
        · exfalso
          simp only [List.map_cons, List.nodup_cons] at hnodup
          exact hnodup.1 (by
            rw [hk]
            exact List.mem_map.mpr ⟨(k, v), h, rfl⟩)
      rw [hv]
      simp [List.find?]
    · have hmem2 : (k, v) ∈ rest := by
        rcases List.mem_cons.mp hmem with h | h
        · exfalso; rw [← h] at hk; exact hk rfl
        · exact h
      have hnodup2 : (rest.map Prod.fst).Nodup := by
        simp only [List.map_cons, List.nodup_cons] at hnodup
        exact hnodup.2
      rw [List.find?_cons, decide_eq_false hk]
      exact ih k v hnodup2 hmem2

theorem specDirectiveCall_eq (kvs : List (String × String)) (sv : String)
    (d nm : List Char) (r : List (List Char))
    (hnodup : (kvs.map Prod.fst).Nodup)
    (hmem : ("service", sv) ∈ kvs)
    (hsplit : splitOnDot sv.data = d :: nm :: r) :
    specDirectiveCall kvs =
      ⟨String.mk d, String.mk nm,
       (kvs.filter (fun kv => ¬ kv.1 = "service")).map (fun kv => (kv.1, Json.str kv.2))⟩ := by
  simp [specDirectiveCall, find_service kvs "service" sv hnodup hmem, hsplit]

theorem runDirectivesAux_render : ∀ (parts : List (String × List (String × String)))
    (calls : List HostCall) (recs : List SvcRec),
    (∀ p ∈ parts, flatDirectiveOk p.2) →
    ∃ recs2,
      runDirectivesAux (fun _ => false) (parts.map (fun p => renderDirective p.2)) calls recs false =
        .ok (calls ++ parts.map (fun p => specDirectiveCall p.2), recs2, false) := by
  intro parts
  induction parts with
  | nil =>
    intro calls recs _
    exact ⟨recs, by simp [runDirectivesAux]⟩
  | cons p rest ih =>
    intro calls recs hall
    obtain ⟨hplain, hnodup, hlen, sv, d, nm, r, hmem, hsplit, hd⟩ :=
      hall p (List.mem_cons_self p rest)
    have hpd := processDirective_render p.2 sv d nm r (hall p (List.mem_cons_self p rest))
      hmem hsplit hd
    have hspec := specDirectiveCall_eq p.2 sv d nm r hnodup hmem hsplit
    obtain ⟨recs2, hrec⟩ := ih
      (calls ++ [⟨String.mk d, String.mk nm,
        (p.2.filter (fun kv => ¬ kv.1 = "service")).map (fun kv => (kv.1, Json.str kv.2))⟩])
      (recs ++ [insertKey
        ((p.2.filter (fun kv => ¬ kv.1 = "service")).map (fun kv => (kv.1, Json.str kv.2)))
        "service" (.str sv)])
      (fun q hq => hall q (List.mem_cons_of_mem p hq))
    refine ⟨recs2, ?_⟩
    simp only [List.map_cons, runDirectivesAux, hpd]
    rw [hrec]
    simp [hspec, List.append_assoc]

theorem scanBraces_renderBody : ∀ (parts : List (String × List (String × String)))
    (tailC : List Char),
    (∀ p ∈ parts, sepStr p.1 ∧ (∀ kv ∈ p.2, plainStr kv.1 ∧ plainStr kv.2)) →
    (∀ c ∈ tailC, ¬ c = '{') →
    scanBraces ((renderBody parts).data ++ tailC) =
      parts.map (fun p => (renderDirective p.2).data) := by
  intro parts
  induction parts with
  | nil =>
    intro tailC _ htail
    simp only [renderBody, List.map_nil]
    exact scanBraces_eq_nil tailC htail
  | cons p rest ih =>
    intro tailC hall htail
    obtain ⟨hsep, hkv⟩ := hall p (List.mem_cons_self p rest)
    have hbody : ((renderBody (p :: rest)).data ++ tailC)
        = p.1.data ++ ('{' :: ((renderPairs p.2).data ++ '}' ::
            ((renderBody rest).data ++ tailC))) := by
      show ((p.1 ++ renderDirective p.2 ++ renderBody rest).data ++ tailC) = _
      simp [renderDirective]
    rw [hbody]
    rw [scanBraces_append_skip p.1.data _ (fun c hc => by
      have := hsep c hc
      simp only [sepChar, Bool.and_eq_true, Bool.not_eq_true', beq_eq_false_iff_ne, ne_eq] at this
      exact this.1)]
    have hnb := renderPairs_no_bad p.2 hkv
    rw [scanBraces_match _ _ (fun hmem => (hnb _ hmem).1 rfl) (fun hmem => (hnb _ hmem).2.1 rfl)]
    rw [ih tailC (fun q hq => hall q (List.mem_cons_of_mem p hq)) htail]
    simp [renderDirective]

theorem removeScan_renderBody_noBrace : ∀ (parts : List (String × List (String × String)))
    (tailC : List Char),
    (∀ p ∈ parts, sepStr p.1 ∧ (∀ kv ∈ p.2, plainStr kv.1 ∧ plainStr kv.2)) →
    (∀ c ∈ tailC, ¬ c = '{') →
    ∀ c ∈ removeScan ((renderBody parts).data ++ tailC), ¬ c = '{' := by
  intro parts
  induction parts with
  | nil =>
    intro tailC _ htail
    have hrw : removeScan (((renderBody []).data : List Char) ++ tailC) = tailC := by
      have h0 := removeScan_append_skip tailC [] htail
      rw [show removeScan ([] : List Char) = [] from rfl] at h0
      simpa using h0
    rw [hrw]
    exact htail
  | cons p rest ih =>
    intro tailC hall htail
    obtain ⟨hsep, hkv⟩ := hall p (List.mem_cons_self p rest)
    have hbody : ((renderBody (p :: rest)).data ++ tailC)
        = p.1.data ++ ('{' :: ((renderPairs p.2).data ++ '}' ::
            ((renderBody rest).data ++ tailC))) := by
      show ((p.1 ++ renderDirective p.2 ++ renderBody rest).data ++ tailC) = _
      simp [renderDirective]
    rw [hbody]
    rw [removeScan_append_skip p.1.data _ (fun c hc => by
      have := hsep c hc
      simp only [sepChar, Bool.and_eq_true, Bool.not_eq_true', beq_eq_false_iff_ne, ne_eq] at this
      exact this.1)]
    have hnb := renderPairs_no_bad p.2 hkv
    rw [removeScan_match _ _ (fun hmem => (hnb _ hmem).1 rfl) (fun hmem => (hnb _ hmem).2.1 rfl)]
    intro c hc
    rcases List.mem_append.mp hc with hc1 | hc2
    · have := hsep c hc1
      simp only [sepChar, Bool.and_eq_true, Bool.not_eq_true', beq_eq_false_iff_ne, ne_eq] at this
      exact this.1
    · exact ih tailC (fun q hq => hall q (List.mem_cons_of_mem p hq)) htail c hc2


theorem renderBody_no_backslash : ∀ (parts : List (String × List (String × String))),
    (∀ p ∈ parts, sepStr p.1 ∧ (∀ kv ∈ p.2, plainStr kv.1 ∧ plainStr kv.2)) →
    ∀ c ∈ (renderBody parts).data, ¬ c = '\\' := by
  intro parts
  induction parts with
  | nil => intro _ c hc; simp [renderBody] at hc
  | cons p rest ih =>
    intro hall c hc
    obtain ⟨hsep, hkv⟩ := hall p (List.mem_cons_self p rest)
    have hbody : (renderBody (p :: rest)).data
        = p.1.data ++ ('\x7b' :: ((renderPairs p.2).data ++ '\x7d' ::
            (renderBody rest).data)) := by
      show (p.1 ++ renderDirective p.2 ++ renderBody rest).data = _
      simp [renderDirective]
    rw [hbody] at hc
    rcases List.mem_append.mp hc with h1 | h2
    · have := hsep c h1
      simp only [sepChar, Bool.and_eq_true, Bool.not_eq_true', beq_eq_false_iff_ne, ne_eq] at this
      exact this.2
    · rcases List.mem_cons.mp h2 with h3 | h4
      · rw [h3]; decide
      · rcases List.mem_append.mp h4 with h5 | h6
        · exact ((renderPairs_no_bad p.2 hkv) c h5).2.2.1
        · rcases List.mem_cons.mp h6 with h7 | h8
          · rw [h7]; decide
          · exact ih (fun q hq => hall q (List.mem_cons_of_mem p hq)) c h8

theorem renderContent_no_backslash (pre tail : String)
    (parts : List (String × List (String × String)))
    (hpre : sepStr pre) (htail : sepStr tail)
    (hparts : ∀ p ∈ parts, sepStr p.1 ∧ (∀ kv ∈ p.2, plainStr kv.1 ∧ plainStr kv.2)) :
    ∀ c ∈ (renderContent pre parts tail).data, ¬ c = '\\' := by
  intro c hc
  have hdecomp : (renderContent pre parts tail).data
      = pre.data ++ (sentinel.data ++ ((renderBody parts).data ++ tail.data)) := by
    simp [renderContent]
  rw [hdecomp] at hc
  rcases List.mem_append.mp hc with h1 | h2
  · have := hpre c h1
    simp only [sepChar, Bool.and_eq_true, Bool.not_eq_true', beq_eq_false_iff_ne, ne_eq] at this
    exact this.2
  · rcases List.mem_append.mp h2 with h3 | h4
    · have hs : ∀ x ∈ ("$ActionRequired").data, ¬ x = '\\' := by decide
      exact hs c h3
    · rcases List.mem_append.mp h4 with h5 | h6
      · exact renderBody_no_backslash parts hparts c h5
      · have := htail c h6
        simp only [sepChar, Bool.and_eq_true, Bool.not_eq_true', beq_eq_false_iff_ne,
          ne_eq] at this
        exact this.2

theorem prefixOf_append_self : ∀ (pat b : List Char), pat.isPrefixOf (pat ++ b) = true := by
  intro pat
  induction pat with
  | nil => intro b; cases b <;> rfl
  | cons c cs ih =>
    intro b
    simp only [List.cons_append, List.isPrefixOf, beq_self_eq_true, Bool.true_and]
    exact ih b

theorem containsSub_append_left : ∀ (a l pat : List Char),
    containsSub pat l = true → containsSub pat (a ++ l) = true := by
  intro a
  induction a with
  | nil => intro l pat h; exact h
  | cons c cs ih =>
    intro l pat h
    simp only [List.cons_append, containsSub]
    have h2 : containsSub pat (cs.append l) = true := ih l pat h
    rw [h2]
    simp

theorem containsSub_found (a pat b : List Char) (hpat : ¬ pat = []) :
    containsSub pat (a ++ (pat ++ b)) = true := by
  apply containsSub_append_left
  cases pat with
  | nil => exact absurd rfl hpat
  | cons c cs =>
    rw [show ((c :: cs) ++ b : List Char) = c :: (cs ++ b) from rfl]
    simp only [containsSub]
    rw [show (c :: (cs ++ b) : List Char) = (c :: cs) ++ b from rfl, prefixOf_append_self]
    simp

theorem extract_renderContent (pre tail : String)
    (parts : List (String × List (String × String)))
    (hpre : sepStr pre) (htail : sepStr tail)
    (hparts : ∀ p ∈ parts, sepStr p.1 ∧ flatDirectiveOk p.2) :
    extract_json_objects (renderContent pre parts tail) =
      parts.map (fun p => renderDirective p.2) := by
  have hparts2 : ∀ p ∈ parts, sepStr p.1 ∧ (∀ kv ∈ p.2, plainStr kv.1 ∧ plainStr kv.2) :=
    fun p hp => ⟨(hparts p hp).1, (hparts p hp).2.1⟩
  have hdecomp : (renderContent pre parts tail).data
      = (pre.data ++ sentinel.data) ++ ((renderBody parts).data ++ tail.data) := by
    simp [renderContent]
  have hprefix : ∀ c ∈ pre.data ++ sentinel.data, ¬ c = '\x7b' := by
    intro c hc
    rcases List.mem_append.mp hc with h1 | h2
    · have := hpre c h1
      simp only [sepChar, Bool.and_eq_true, Bool.not_eq_true', beq_eq_false_iff_ne, ne_eq] at this
      exact this.1
    · have hs : ∀ x ∈ ("$ActionRequired").data, ¬ x = '\x7b' := by decide
      exact hs c h2
  have htailb : ∀ c ∈ tail.data, ¬ c = '\x7b' := by
    intro c hc
    have := htail c hc
    simp only [sepChar, Bool.and_eq_true, Bool.not_eq_true', beq_eq_false_iff_ne, ne_eq] at this
    exact this.1
  have hscan : scanBraces (renderContent pre parts tail).data
      = parts.map (fun p => (renderDirective p.2).data) := by
    rw [hdecomp, scanBraces_append_skip _ _ hprefix]
    exact scanBraces_renderBody parts tail.data hparts2 htailb
  unfold extract_json_objects
  rw [hscan, List.map_map]
  have hmapeq : parts.map (String.mk ∘ fun p => (renderDirective p.2).data)
      = parts.map (fun p => renderDirective p.2) := rfl
  rw [hmapeq]
  apply List.filter_eq_self.mpr
  intro seg hseg
  obtain ⟨p, hp, hpe⟩ := List.mem_map.mp hseg
  obtain ⟨hplain, hnodup, _⟩ := (hparts p hp).2
  rw [← hpe]
  rw [jsonLoads_render p.2 hplain hnodup]
  rfl


theorem processContent_eq (hostFails : HostCall → Bool) (content : String)
    (hfil : content.data.filter (fun ch => ¬ ch = '\\') = content.data)
    (hsent : containsSub sentinel.data content.data = true)
    (calls : List HostCall) (recs : List SvcRec)
    (hrun : runDirectivesAux hostFails (extract_json_objects content) [] [] false =
      .ok (calls, recs, false)) :
    processContent hostFails content =
      .ok (calls, recs, String.mk (pyStrip (removeSubstring noActionSentinel.data
        (removeSubstring sentinel.data (removeScan content.data))))) := by
  simp only [processContent]
  rw [hfil, hsent, if_pos (show (true : Bool) = true from rfl), mk_data_eq, hrun]
  rfl

theorem extract_of_no_brace (s : String) (h : ∀ c ∈ s.data, ¬ c = '\x7b') :
    extract_json_objects s = [] := by
  unfold extract_json_objects
  rw [scanBraces_eq_nil _ h]
  rfl


/-! ### Claim C1 -/

/-- Counterexample to C1 as stated: `{"service": "switch.toggle"}` is a
syntactically valid JSON object with a `service` key following the sentinel,
yet no host service is invoked for it: after `service_data.pop("service")`
the remaining dict is empty and the `if not service or not service_call:
continue` guard (line 365) skips the directive entirely. -/
theorem sentinel_single_key_not_invoked :
    jsonLoads "\x7b\"service\": \"switch.toggle\"\x7d" =
      some (.obj [("service", Json.str "switch.toggle")]) ∧
    processContent (fun _ => false) "$ActionRequired \x7b\"service\": \"switch.toggle\"\x7d" =
      .ok ([], [], "") := by
  exact ⟨rfl, rfl⟩

/-- Claim C1 (amended): for a model message whose content is plain text, the
`$ActionRequired` sentinel, and then one or more well-formed flat JSON
directives — each with distinct plain keys, a dotted non-`script` `service`
value, and at least one key besides `service` — the directive loop invokes
exactly those services against the host, each directive once, in order of
appearance, and the text the loop emits contains no raw JSON object. -/
theorem sentinel_directives_invoked_no_json_left (pre tail : String)
    (parts : List (String × List (String × String)))
    (hne : ¬ parts = [])
    (hpre : sepStr pre) (htail : sepStr tail)
    (hparts : ∀ p ∈ parts, sepStr p.1 ∧ flatDirectiveOk p.2) :
    ∃ recs out,
      processContent (fun _ => false) (renderContent pre parts tail) =
        .ok (parts.map (fun p => specDirectiveCall p.2), recs, out) ∧
      extract_json_objects out = [] := by
  have hparts2 : ∀ p ∈ parts, sepStr p.1 ∧ (∀ kv ∈ p.2, plainStr kv.1 ∧ plainStr kv.2) :=
    fun p hp => ⟨(hparts p hp).1, (hparts p hp).2.1⟩
  have hnobs : ∀ c ∈ (renderContent pre parts tail).data, ¬ c = '\\' :=
    renderContent_no_backslash pre tail parts hpre htail hparts2
  have hc1 : (renderContent pre parts tail).data.filter (fun ch => ¬ ch = '\\')
      = (renderContent pre parts tail).data := by
    apply List.filter_eq_self.mpr
    intro a ha
    exact decide_eq_true (hnobs a ha)
  have hsent : containsSub sentinel.data (renderContent pre parts tail).data = true := by
    have hdecomp : (renderContent pre parts tail).data
        = pre.data ++ (sentinel.data ++ ((renderBody parts).data ++ tail.data)) := by
      simp [renderContent]
    rw [hdecomp]
    exact containsSub_found pre.data sentinel.data _ (by decide)
  have hextract := extract_renderContent pre tail parts hpre htail hparts
  obtain ⟨recs2, hrun0⟩ := runDirectivesAux_render parts [] [] (fun p hp => (hparts p hp).2)
  have hrun : runDirectivesAux (fun _ => false)
      (extract_json_objects (renderContent pre parts tail)) [] [] false =
      .ok (parts.map (fun p => specDirectiveCall p.2), recs2, false) := by
    rw [hextract]
    simpa using hrun0
  have hprefix : ∀ c ∈ pre.data ++ sentinel.data, ¬ c = '\x7b' := by
    intro c hc
    rcases List.mem_append.mp hc with h1 | h2
    · have := hpre c h1
      simp only [sepChar, Bool.and_eq_true, Bool.not_eq_true', beq_eq_false_iff_ne, ne_eq] at this
      exact this.1
    · have hs : ∀ x ∈ ("$ActionRequired").data, ¬ x = '\x7b' := by decide
      exact hs c h2
  have htailb : ∀ c ∈ tail.data, ¬ c = '\x7b' := by
    intro c hc
    have := htail c hc
    simp only [sepChar, Bool.and_eq_true, Bool.not_eq_true', beq_eq_false_iff_ne, ne_eq] at this
    exact this.1
  have hnb3 : ∀ c ∈ removeScan (renderContent pre parts tail).data, ¬ c = '\x7b' := by
    have hdecomp : (renderContent pre parts tail).data
        = (pre.data ++ sentinel.data) ++ ((renderBody parts).data ++ tail.data) := by
      simp [renderContent]
    rw [hdecomp, removeScan_append_skip _ _ hprefix]
    intro c hc
    rcases List.mem_append.mp hc with h1 | h2
    · exact hprefix c h1
    · exact removeScan_renderBody_noBrace parts tail.data hparts2 htailb c h2
  have hnb4 : ∀ c ∈ removeSubstring sentinel.data
      (removeScan (renderContent pre parts tail).data), ¬ c = '\x7b' :=
    fun c hc => hnb3 c (removeSubstring_subset sentinel.data _ _ le_rfl c hc)
  have hnb5 : ∀ c ∈ removeSubstring noActionSentinel.data (removeSubstring sentinel.data
      (removeScan (renderContent pre parts tail).data)), ¬ c = '\x7b' :=
    fun c hc => hnb4 c (removeSubstring_subset noActionSentinel.data _ _ le_rfl c hc)
  have hnb6 : ∀ c ∈ pyStrip (removeSubstring noActionSentinel.data (removeSubstring sentinel.data
      (removeScan (renderContent pre parts tail).data))), ¬ c = '\x7b' :=
    fun c hc => hnb5 c (pyStrip_subset _ c hc)
  refine ⟨recs2, _,
    processContent_eq (fun _ => false) (renderContent pre parts tail) hc1 hsent _ _ hrun, ?_⟩
  exact extract_of_no_brace _ hnb6

/-- Witness for the amended C1 theorem at a concrete content with one
directive. -/
theorem sentinel_directives_invoked_no_json_left_witness :
    ∃ recs out,
      processContent (fun _ => false)
        (renderContent "Sure. "
          [(" ", [("service", "light.turn_on"), ("entity_id", "light.kitchen")])] "") =
        .ok ([specDirectiveCall [("service", "light.turn_on"), ("entity_id", "light.kitchen")]],
          recs, out) ∧
      extract_json_objects out = [] := by
  have h := sentinel_directives_invoked_no_json_left "Sure. " ""
    [(" ", [("service", "light.turn_on"), ("entity_id", "light.kitchen")])]
    (by decide)
    (by unfold sepStr; decide)
    (by unfold sepStr; decide)
    (by
      intro p hp
      simp only [List.mem_singleton] at hp
      subst hp
      exact ⟨by unfold sepStr; decide, by unfold plainStr; decide, by decide, by decide,
        ⟨"light.turn_on", ("light").data, ("turn_on").data, [], by decide, by decide, by decide⟩⟩)
  simpa using h

end ExtOpenAI
